import Mathlib

/-!
# Specification-string parsers of `src/utils/data-parser.js`

A shallow embedding of the seven segmenters (`parseRAM`, `parseStorage`,
`parseDisplay`, `parseCPU`, `parseGPU`, `parseDimensions`,
`parseMemoryTypes`) and of the cleaner `cleanSpecString`.

A JavaScript string is modelled as a `List Char`.  The JavaScript values
that flow through the parsers are `undefined`, a string, and the empty
array `[]` that `cleanSpecString` returns for a falsy argument.  A call
that ends in a `TypeError` is `Except.error JSError.typeError`.

The file also embeds `getComparisons` of `src/utils/getComparisons.js`
(namespace `GetComparisons`) and the extraction loop of `processFile` of
`scripts/process-data.js` (namespace `ProcessData`).
-/

namespace DataParser

/-! ## Values -/

/-- The JavaScript values met by the parsers: `undefined`, the empty array
`[]`, and strings. -/
inductive JSVal where
  | undefined
  | emptyArray
  | str (s : List Char)
  deriving DecidableEq, Repr

/-- The only exception the parsers can raise: calling a string method on a
value that does not have it. -/
inductive JSError where
  | typeError
  deriving DecidableEq, Repr

deriving instance DecidableEq for Except

/-! ## Character classes and string primitives -/

/-- The class `\s` of a JavaScript regular expression, which is also the set
of characters removed by `String.prototype.trim` (WhiteSpace and
LineTerminator code points). -/
def isWhiteSpace (c : Char) : Bool :=
  let n := c.toNat
  (9 ≤ n && n ≤ 13) || n == 32 || n == 160 || n == 5760 ||
    (8192 ≤ n && n ≤ 8202) || n == 8232 || n == 8233 || n == 8239 ||
    n == 8287 || n == 12288 || n == 65279

/-- The class `\d` of a JavaScript regular expression: ASCII digits. -/
def isDigit (c : Char) : Bool :=
  48 ≤ c.toNat && c.toNat ≤ 57

/-- The class `[\n\t]`. -/
def isNewlineOrTab (c : Char) : Bool :=
  c == '\n' || c == '\t'

/-- The method `String.prototype.trim`: whitespace removed at both ends. -/
def trim (s : List Char) : List Char :=
  (s.dropWhile isWhiteSpace).rdropWhile isWhiteSpace

/-- The method `String.prototype.includes` with a literal search string. -/
def includes (pat : List Char) : List Char → Bool
  | [] => pat.isPrefixOf []
  | c :: rest => pat.isPrefixOf (c :: rest) || includes pat rest

/-- Prepend a character to the first piece of a split in progress. -/
def consHead (c : Char) : List (List Char) → List (List Char)
  | [] => [[c]]
  | p :: ps => (c :: p) :: ps

/-- The scan of `String.prototype.split` with a non-empty literal separator:
the first argument counts the characters of a matched separator that are
still to be skipped. -/
def splitOnAux (sep : List Char) : Nat → List Char → List (List Char)
  | _, [] => [[]]
  | k + 1, _ :: rest => splitOnAux sep k rest
  | 0, c :: rest =>
    if sep.isPrefixOf (c :: rest) then [] :: splitOnAux sep (sep.length - 1) rest
    else consHead c (splitOnAux sep 0 rest)

/-- The call `s.split(sep)` for a non-empty literal separator `sep`. -/
def splitOn (sep : List Char) (s : List Char) : List (List Char) :=
  splitOnAux sep 0 s

/-- The scan of `String.prototype.split` with a zero-width separator
`(?<!^)(?=look)`: the string is cut before every position, other than the
start, at which the lookahead `look` matches the rest of the string.  The
second argument is the piece being read, which is never empty. -/
def splitBeforeAux (look : List Char → Bool) : List Char → List Char → List (List Char)
  | cur, [] => [cur]
  | cur, c :: rest =>
    if look (c :: rest) then cur :: splitBeforeAux look [c] rest
    else splitBeforeAux look (cur ++ [c]) rest

/-- The call `s.split(/(?<!^)(?=look)/)`: the first character is never a cut, since
the lookbehind `(?<!^)` fails at position 0; on the empty string the
separator does not match and the result is `[""]`. -/
def splitBefore (look : List Char → Bool) : List Char → List (List Char)
  | [] => [[]]
  | c :: rest => splitBeforeAux look [c] rest

/-- The tail `.map(s => s.trim()).filter(Boolean)` of every split. -/
def trimmedNonEmpty (pieces : List (List Char)) : List (List Char) :=
  (pieces.map trim).filter (fun p => !p.isEmpty)

/-! ## The cleaner -/

/-- The call `str.replace(/^- \s+[\n\t]*/, '')`: at the start of the string, a
dash, a space, a greedy non-empty run of whitespace and a greedy run of
newlines and tabs are removed. -/
def stripMarker (s : List Char) : List Char :=
  match s with
  | c1 :: c2 :: rest =>
    if c1 = '-' ∧ c2 = ' ' ∧ rest.takeWhile isWhiteSpace ≠ [] then
      (rest.dropWhile isWhiteSpace).dropWhile isNewlineOrTab
    else s
  | _ => s

/-- The function `cleanSpecString(str)`: a falsy argument (`undefined`, `""`) gives the
empty array `[]`; a string is stripped of the list marker and trimmed; the
empty array is truthy and has no `replace` method. -/
def cleanSpecString : JSVal → Except JSError JSVal
  | .undefined => .ok .emptyArray
  | .emptyArray => .error .typeError
  | .str s => if s.isEmpty then .ok .emptyArray else .ok (.str (trim (stripMarker s)))

/-! ## RAM and storage -/

/-- The string starts with a digit: the lookahead `(?=\d)`. -/
def startsWithDigit : List Char → Bool
  | [] => false
  | c :: _ => isDigit c

/-- The call `clean.replace(/(U)(?=\d)/g, '$1|')` for a set `U` of two-letter units:
a `|` is inserted after every unit that is followed by a digit, the scan
resuming after the unit. -/
def insertAfterUnit (isUnit : Char → Char → Bool) : List Char → List Char
  | [] => []
  | [c] => [c]
  | c1 :: c2 :: rest =>
    if isUnit c1 c2 && startsWithDigit rest then
      c1 :: c2 :: '|' :: insertAfterUnit isUnit rest
    else c1 :: insertAfterUnit isUnit (c2 :: rest)

/-- The alternative `GB`. -/
def isGB (c1 c2 : Char) : Bool := c1 == 'G' && c2 == 'B'

/-- The alternatives `GB|TB`. -/
def isGBorTB (c1 c2 : Char) : Bool := (c1 == 'G' || c1 == 'T') && c2 == 'B'

/-- The function `parseRAM(str)`: the units followed by a digit are marked,
the string is split on the marker, the pieces are trimmed and the empty ones
dropped.  The empty array has no `replace` method. -/
def parseRAM (str : JSVal) : Except JSError (List JSVal) := do
  let clean ← cleanSpecString str
  match clean with
  | .str c => pure ((trimmedNonEmpty (splitOn ['|'] (insertAfterUnit isGB c))).map .str)
  | _ => throw .typeError

/-- The function `parseStorage(str)`: as `parseRAM`, with the units `GB` and
`TB`. -/
def parseStorage (str : JSVal) : Except JSError (List JSVal) := do
  let clean ← cleanSpecString str
  match clean with
  | .str c => pure ((trimmedNonEmpty (splitOn ['|'] (insertAfterUnit isGBorTB c))).map .str)
  | _ => throw .typeError

/-! ## Display -/

/-- The first `k` characters exist and are digits. -/
def digitsAhead (k : Nat) (s : List Char) : Bool :=
  (s.take k).length == k && (s.take k).all isDigit

/-- A match of `\d{k}\s*x\s*\d{3,4}` at the start of the string. -/
def resolutionWith (k : Nat) (s : List Char) : Bool :=
  digitsAhead k s &&
    match (s.drop k).dropWhile isWhiteSpace with
    | [] => false
    | c :: rest => c == 'x' && digitsAhead 3 (rest.dropWhile isWhiteSpace)

/-- The lookahead `(?=\d{3,4}\s*x\s*\d{3,4})`: the greedy `\d{3,4}` is tried
with four digits, then with three. -/
def resolutionAhead (s : List Char) : Bool :=
  resolutionWith 4 s || resolutionWith 3 s

/-- The function `parseDisplay(str)`.  On the empty array, `clean.includes(' x ')` is
`Array.prototype.includes`, which is false. -/
def parseDisplay (str : JSVal) : Except JSError (List JSVal) := do
  let clean ← cleanSpecString str
  match clean with
  | .str c =>
    if !includes " x ".toList c then pure [.str c]
    else pure ((trimmedNonEmpty (splitBefore resolutionAhead c)).map .str)
  | .emptyArray => pure [.emptyArray]
  | .undefined => throw .typeError

/-! ## CPU and GPU -/

/-- The lookahead `(?=(?:t1|t2|...))` for literal tokens. -/
def startsWithAny (tokens : List (List Char)) (s : List Char) : Bool :=
  tokens.any (fun t => t.isPrefixOf s)

/-- The brand tokens of `parseCPU`. -/
def cpuTokens : List (List Char) :=
  ["Intel".toList, "AMD".toList, "Apple".toList, "Qualcomm".toList, "Snapdragon".toList]

/-- The brand tokens of `parseGPU`. -/
def gpuTokens : List (List Char) :=
  ["GeForce".toList, "Radeon".toList, "Intel".toList, "Apple".toList, "Nvidia".toList,
    "Adreno".toList, "Qualcomm".toList]

/-- The function `parseCPU(str)`: a cut before every brand token that is not
at the start.  The empty array has no `split` method. -/
def parseCPU (str : JSVal) : Except JSError (List JSVal) := do
  let clean ← cleanSpecString str
  match clean with
  | .str c => pure ((trimmedNonEmpty (splitBefore (startsWithAny cpuTokens) c)).map .str)
  | _ => throw .typeError

/-- The function `parseGPU(str)`: as `parseCPU`, with the GPU brand tokens. -/
def parseGPU (str : JSVal) : Except JSError (List JSVal) := do
  let clean ← cleanSpecString str
  match clean with
  | .str c => pure ((trimmedNonEmpty (splitBefore (startsWithAny gpuTokens) c)).map .str)
  | _ => throw .typeError

/-! ## Dimensions and memory types -/

/-- The call `s.replace(pat, pat + '|')` for a non-empty literal `pat`: a `|` is
inserted after the first occurrence of `pat`. -/
def insertAfterFirst (pat : List Char) : List Char → List Char
  | [] => []
  | c :: rest =>
    if pat.isPrefixOf (c :: rest) then pat ++ '|' :: (c :: rest).drop pat.length
    else c :: insertAfterFirst pat rest

/-- The function `parseDimensions(str)`.  On the empty array both `includes`
calls are `Array.prototype.includes`, which is false. -/
def parseDimensions (str : JSVal) : Except JSError (List JSVal) := do
  let clean ← cleanSpecString str
  match clean with
  | .str c =>
    if includes "mm".toList c && includes "inches".toList c then
      pure ((trimmedNonEmpty (splitOn ['|']
        (insertAfterFirst "inches".toList
          (insertAfterFirst "mm".toList (insertAfterFirst "nm".toList c))))).map .str)
    else pure [.str c]
  | .emptyArray => pure [.emptyArray]
  | .undefined => throw .typeError

/-- The function `parseMemoryTypes(str)`.  On the empty array `includes` is
`Array.prototype.includes`, which is false. -/
def parseMemoryTypes (str : JSVal) : Except JSError (List JSVal) := do
  let clean ← cleanSpecString str
  match clean with
  | .str c =>
    if includes " - ".toList c then
      pure ((trimmedNonEmpty (splitOn " - ".toList c)).map .str)
    else pure [.str c]
  | .emptyArray => pure [.emptyArray]
  | .undefined => throw .typeError

/-- A string argument. -/
def lit (s : String) : JSVal := .str s.toList

/-- A list of string results. -/
def lits (l : List String) : List JSVal := l.map lit

/-! ## Specification vocabulary -/

/-- The pieces `ps` cut the string `s` in order, consecutive pieces being
separated by a gap that satisfies `G`. -/
inductive Cut (G : List Char → Prop) : List (List Char) → List Char → Prop
  | single (p : List Char) : Cut G [p] p
  | cons (p g : List Char) {ps : List (List Char)} {s : List Char} :
      G g → Cut G ps s → Cut G (p :: ps) (p ++ g ++ s)

/-- The non-empty segments `segs` occur in the string one after the other,
without overlap. -/
inductive InOrder : List (List Char) → List Char → Prop
  | nil (s : List Char) : InOrder [] s
  | cons (g seg : List Char) {segs : List (List Char)} {s : List Char} :
      seg ≠ [] → InOrder segs s → InOrder (seg :: segs) (g ++ seg ++ s)

/-- The segments `segs` are the substrings of `c` that start at the positions
`starts`: each segment ends inside `c`, before or where the next one starts,
and the next one starts strictly later. -/
def Placed (c : List Char) : List (List Char) → List Nat → Prop
  | [], [] => True
  | seg :: segs, st :: starts =>
    (c.drop st).take seg.length = seg ∧ st + seg.length ≤ c.length ∧
      (∀ nxt, starts.head? = some nxt → st + seg.length ≤ nxt ∧ st < nxt) ∧
      Placed c segs starts
  | _, _ => False

/-- The string `t` is the string `s` with `|` characters inserted. -/
inductive PipeIns : List Char → List Char → Prop
  | nil : PipeIns [] []
  | keep (a : Char) {s t : List Char} :
      PipeIns s t → PipeIns (a :: s) (a :: t)
  | ins {s t : List Char} : PipeIns s t → PipeIns s ('|' :: t)

/-- The string with every whitespace character deleted. -/
def deleteWhiteSpace (s : List Char) : List Char :=
  s.filter (fun c => !isWhiteSpace c)

/-- A string without leading or trailing whitespace. -/
def Trimmed (s : List Char) : Prop :=
  (∀ c, s.head? = some c → isWhiteSpace c = false) ∧
    (∀ c, s.getLast? = some c → isWhiteSpace c = false)

/-- An occurrence of the token `tok` starts at a position of `s` other than
the start. -/
def OccursAfterStart (tok s : List Char) : Prop :=
  ∃ pre suf, pre ≠ [] ∧ s = pre ++ tok ++ suf

/-- An occurrence in `s` of a unit accepted by `isUnit` that is immediately
followed by a digit. -/
def UnitBeforeDigit (isUnit : Char → Char → Bool) (s : List Char) : Prop :=
  ∃ pre c1 c2 d suf, isUnit c1 c2 = true ∧ isDigit d = true ∧
    s = pre ++ c1 :: c2 :: d :: suf

/-- The test, by a scan, that a unit accepted by `isUnit` and immediately
followed by a digit occurs in the string. -/
def hasUnitBeforeDigit (isUnit : Char → Char → Bool) : List Char → Bool
  | c1 :: c2 :: d :: rest =>
    (isUnit c1 c2 && isDigit d) || hasUnitBeforeDigit isUnit (c2 :: d :: rest)
  | _ => false

/-- The outcome `r` is a sequence of strings that occur in `c` as substrings
at strictly increasing start positions, without overlap. -/
def SegmentsPlaced (c : List Char) (r : Except JSError (List JSVal)) : Prop :=
  ∃ (segs : List (List Char)) (starts : List Nat),
    r = .ok (segs.map .str) ∧ Placed c segs starts

/-- The outcome `r` is a sequence of strings whose concatenation, restricted
to the characters kept by `keep`, is `c` restricted to those characters. -/
def Reconstructs (keep : Char → Bool) (c : List Char)
    (r : Except JSError (List JSVal)) : Prop :=
  ∃ segs : List (List Char),
    r = .ok (segs.map .str) ∧ segs.flatten.filter keep = c.filter keep

/-- Every character but whitespace. -/
def notSpace (c : Char) : Bool := !isWhiteSpace c

/-- A value made of one or more decimal digits followed by `GB`. -/
def IsGBValue (v : List Char) : Prop :=
  ∃ ds : List Char, ds ≠ [] ∧ (∀ d ∈ ds, isDigit d = true) ∧ v = ds ++ ['G', 'B']

/-- A value made of one or more decimal digits followed by `GB` or by `TB`. -/
def IsStorageValue (v : List Char) : Prop :=
  ∃ (ds : List Char) (u : Char), ds ≠ [] ∧ (∀ d ∈ ds, isDigit d = true) ∧
    (u = 'G' ∨ u = 'T') ∧ v = ds ++ [u, 'B']

/-- The string `pat` occurs in `s`. -/
def Contains (pat s : List Char) : Prop :=
  ∃ pre suf, s = pre ++ pat ++ suf

/-- The string `pat` occurs in `s` at position `n`. -/
def OccursAt (pat s : List Char) (n : Nat) : Prop :=
  ∃ pre suf, s = pre ++ pat ++ suf ∧ pre.length = n

/-- The string begins with one of the tokens. -/
def StartsWithToken (tokens : List (List Char)) (s : List Char) : Prop :=
  ∃ tok ∈ tokens, tok <+: s

/-- The unit `TB`. -/
def isTB (c1 c2 : Char) : Bool := c1 == 'T' && c2 == 'B'

/-- The string begins with the list marker that `cleanSpecString` removes: a
dash, a space and a whitespace character. -/
def StartsWithMarker (s : List Char) : Prop :=
  ∃ w rest, isWhiteSpace w = true ∧ s = '-' :: ' ' :: w :: rest

end DataParser

/-! # The pairing helper of `src/utils/getComparisons.js` -/

namespace GetComparisons

/-- The pair pushed by iteration `i` of the loop: `[arr[i % n], arr[(i + 1) % n]]`.
An index outside the array reads `undefined`, modelled as `none`. -/
def pairAt {α : Type} (arr : List α) (i : Nat) : Option α × Option α :=
  let index1 := i % arr.length
  let index2 := (i + 1) % arr.length
  (arr[index1]?, arr[index2]?)

/-- The loop `for (let i = 0; i < num; i++)` of `getComparisons`: the first
argument counts the iterations that remain, the second is the counter `i`,
the third is `result`. -/
def loop {α : Type} (arr : List α) :
    Nat → Nat → List (Option α × Option α) → List (Option α × Option α)
  | 0, _, result => result
  | k + 1, i, result => loop arr k (i + 1) (result ++ [pairAt arr i])

/-- The function `getComparisons(arr, num)`. -/
def getComparisons {α : Type} (arr : List α) (num : Nat) : List (Option α × Option α) :=
  loop arr num 0 []

end GetComparisons

namespace DataParser


end DataParser

/-! # The profile extraction of `scripts/process-data.js`

The parsed content of a dataset file is a list of comparison records.  A JSON
object is modelled as the list of its entries in enumeration order, a missing
or `null` property as `none`, and the values of the image, price, score and
specification tables as JSON scalars.  A property read `o[k]` is the read of
an own entry: the properties that an object inherits from `Object.prototype`
(read when an item is named `constructor`, for instance) are outside this
model; they bear on the content of a profile, not on the keys of the map. -/

namespace ProcessData

/-- A JSON scalar: an identifier, a price, a score, a specification text. -/
inductive Atom where
  | null
  | bool (b : Bool)
  | num (n : Int)
  | str (s : List Char)
  deriving DecidableEq, Repr

/-- The truthiness of a JSON scalar: `null`, `false`, `0` and `""` are falsy. -/
def truthy : Atom → Bool
  | .null => false
  | .bool b => b
  | .num n => n != 0
  | .str s => !s.isEmpty

/-- A JSON object, as the list of its entries in enumeration order. -/
abbrev Obj (V : Type) := List (List Char × V)

/-- The property key made from `name`: `undefined` reads the key `undefined`. -/
def propKey : Option (List Char) → List Char
  | some n => n
  | none => "undefined".toList

/-- The assignment `o[k] = v`: an existing entry is overwritten in place, a new
one is added at the end. -/
def setProp {V : Type} (o : Obj V) (k : List Char) (v : V) : Obj V :=
  if o.any (fun e => e.1 == k) then o.map (fun e => if e.1 == k then (k, v) else e)
  else o ++ [(k, v)]

/-- The property `metadata` of a record. -/
structure Metadata where
  names : Option (List (List Char))
  ids : Option (List Atom)
  slugs : Option (List (List Char))

/-- A comparison record, with the properties that `processFile` reads. -/
structure Comparison where
  metadata : Option Metadata
  images : Option (Obj Atom)
  prices : Option (Obj Atom)
  review_scores : Option (Obj (Option (Obj Atom)))
  specs : Option (Obj (Option (Obj Atom)))

/-- The value of `slug`: a string, `null` when the record has no `slugs`, or
`undefined` when `slugs` is too short. -/
inductive Slug where
  | null
  | undefined
  | str (s : List Char)
  deriving DecidableEq, Repr

/-- The profile object built for one item. -/
structure Profile where
  id : Atom
  name : Option (List Char)
  slug : Slug
  type : List Char
  images : Obj Atom
  price : Atom
  scores : Obj Atom
  specs : Obj Atom

/-- The expression `slugs ? slugs[index] : null`. -/
def slugAt (slugs : Option (List (List Char))) (index : Nat) : Slug :=
  match slugs with
  | none => .null
  | some l =>
    match l[index]? with
    | some s => .str s
    | none => .undefined

/-- The object `itemImages`: `main` is set when `images[name]` is truthy. -/
def itemImages (images : Option (Obj Atom)) (name : Option (List Char)) : Obj Atom :=
  match images with
  | none => []
  | some o =>
    match o.lookup (propKey name) with
    | some v => if truthy v then [("main".toList, v)] else []
    | none => []

/-- The value `itemPrice`: `prices && prices[name] ? prices[name] : null`. -/
def itemPrice (prices : Option (Obj Atom)) (name : Option (List Char)) : Atom :=
  match prices with
  | none => .null
  | some o =>
    match o.lookup (propKey name) with
    | some v => if truthy v then v else .null
    | none => .null

/-- The call `Object.keys(values).find(k => name.includes(k) || k.includes(name))`:
on a non-empty key list the callback reads `name.includes`, which raises when
`name` is `undefined`. -/
def findKey (name : Option (List Char)) (keys : List (List Char)) :
    Except DataParser.JSError (Option (List Char)) :=
  match keys, name with
  | [], _ => .ok none
  | _ :: _, none => .error .typeError
  | k :: ks, some n =>
    .ok ((k :: ks).find? (fun key => DataParser.includes key n || DataParser.includes n key))

/-- One turn of the loop over `Object.entries(review_scores)`.  A `null` table
makes `Object.keys(values)` raise. -/
def scoreStep (name : Option (List Char)) (itemScores : Obj Atom)
    (entry : List Char × Option (Obj Atom)) : Except DataParser.JSError (Obj Atom) :=
  match entry.2 with
  | none => .error .typeError
  | some values =>
    match values.lookup (propKey name) with
    | some v => .ok (setProp itemScores entry.1 v)
    | none => do
      let key ← findKey name (values.map (fun e => e.1))
      match key with
      | none => pure itemScores
      | some k =>
        if k.isEmpty then pure itemScores
        else
          match values.lookup k with
          | some v => pure (setProp itemScores entry.1 v)
          | none => pure itemScores

/-- One turn of the loop over `Object.entries(specs)`. -/
def specStep (name : Option (List Char)) (itemSpecs : Obj Atom)
    (entry : List Char × Option (Obj Atom)) : Obj Atom :=
  match entry.2 with
  | none => itemSpecs
  | some values =>
    match values.lookup (propKey name) with
    | some v => setProp itemSpecs entry.1 v
    | none => itemSpecs

/-- The construction of the profile of one item, from `const itemImages` to the
object literal `profile`. -/
def buildProfile (type : List Char) (comp : Comparison) (id : Atom)
    (name : Option (List Char)) (slug : Slug) : Except DataParser.JSError Profile := do
  let itemScores ←
    match comp.review_scores with
    | none => pure []
    | some rs => rs.foldlM (scoreStep name) []
  let itemSpecs :=
    match comp.specs with
    | none => []
    | some sp => sp.foldl (specStep name) []
  pure
    { id := id, name := name, slug := slug, type := type,
      images := itemImages comp.images name, price := itemPrice comp.prices name,
      scores := itemScores, specs := itemSpecs }

/-- The JavaScript `Map` from identifiers to profiles, as its entries in
insertion order. -/
abbrev ProfileMap := List (Atom × Profile)

/-- The call `map.has(id)`. -/
def has (map : ProfileMap) (id : Atom) : Bool :=
  map.any (fun e => e.1 == id)

/-- The callback of `[0, 1].forEach(index => ...)` for one record that passed
the guard: a falsy identifier is skipped, `names[index]` raises when the
record has no `names`, an identifier already in the map is skipped, and a new
one is given the profile built from this record and position. -/
def processItem (type : List Char) (comp : Comparison) (md : Metadata) (ids : List Atom)
    (map : ProfileMap) (index : Nat) : Except DataParser.JSError ProfileMap :=
  match ids[index]? with
  | none => pure map
  | some id =>
    if !truthy id then pure map
    else
      match md.names with
      | none => throw .typeError
      | some names =>
        if has map id then pure map
        else do
          let profile ← buildProfile type comp id names[index]? (slugAt md.slugs index)
          pure (map ++ [(id, profile)])

/-- The callback of `comparisons.forEach(comp => ...)`: a record without
`metadata`, without `metadata.ids` or with fewer than two identifiers is
skipped; otherwise both items of the pair are processed. -/
def processComparison (type : List Char) (map : ProfileMap) (comp : Comparison) :
    Except DataParser.JSError ProfileMap :=
  match comp.metadata with
  | none => pure map
  | some md =>
    match md.ids with
    | none => pure map
    | some ids =>
      if ids.length < 2 then pure map
      else [0, 1].foldlM (processItem type comp md ids) map

/-- The body of the `try` block of `processFile`, after the file has been read
and parsed: the map filled by the loop over the records. -/
def processBatch (type : List Char) (comparisons : List Comparison) :
    Except DataParser.JSError ProfileMap :=
  comparisons.foldlM (processComparison type) []

/-- The function `processFile`, on the parsed content of the file: the values
of the map in insertion order, or `[]` when an exception was caught. -/
def processFile (type : List Char) (comparisons : List Comparison) : List Profile :=
  match processBatch type comparisons with
  | .ok map => map.map (fun e => e.2)
  | .error _ => []

/-- The identifiers that the loop meets at position `index` of a record: the
identifier there, when it is truthy. -/
def occurrenceAt (comp : Comparison) (ids : List Atom) (index : Nat) :
    List (Atom × Comparison × Nat) :=
  match ids[index]? with
  | none => []
  | some id => if truthy id then [(id, comp, index)] else []

/-- The identifiers that the loop meets in one record, with the record and the
pair position. -/
def occurrencesOf (comp : Comparison) : List (Atom × Comparison × Nat) :=
  match comp.metadata with
  | none => []
  | some md =>
    match md.ids with
    | none => []
    | some ids =>
      if ids.length < 2 then [] else occurrenceAt comp ids 0 ++ occurrenceAt comp ids 1

/-- The identifiers that the loop meets in a batch, in order. -/
def occurrences (comparisons : List Comparison) : List (Atom × Comparison × Nat) :=
  comparisons.flatMap occurrencesOf

/-- The list without its repetitions, every element at its first appearance. -/
def keepFirst : List Atom → List Atom
  | [] => []
  | a :: l => a :: (keepFirst l).filter (fun b => b != a)

/-- The profile `p` is the one built from the record `comp` at the pair
position `index`. -/
def BuiltFrom (type : List Char) (comp : Comparison) (index : Nat) (p : Profile) : Prop :=
  ∃ md ids names id, comp.metadata = some md ∧ md.ids = some ids ∧
    md.names = some names ∧ ids[index]? = some id ∧
    buildProfile type comp id names[index]? (slugAt md.slugs index) = .ok p

/-- A record whose pair has the identifiers `id0` and `id1` and the names
`n0` and `n1`, without slugs and tables. -/
def pairRecord (id0 id1 : Int) (n0 n1 : String) : Comparison :=
  { metadata := some
      { names := some [n0.toList, n1.toList], ids := some [.num id0, .num id1], slugs := none },
    images := none, prices := none, review_scores := none, specs := none }

/-- A batch of two records in which the identifier `1` appears twice, under
two names. -/
def repeatedIdBatch : List Comparison :=
  [pairRecord 1 2 "Alpha 14" "Bravo 15", pairRecord 3 1 "Charlie 16" "Alpha 14 (2024)"]

/-- The invariant of the loop of `processFile`: after the identifiers `occ`
have been met, the keys of the map are those identifiers at their first
appearance, and every entry holds the profile built where its key first
appeared. -/
def LoopInvariant (type : List Char) (map : ProfileMap)
    (occ : List (Atom × Comparison × Nat)) : Prop :=
  map.map (fun e => e.1) = keepFirst (occ.map (fun o => o.1)) ∧
  ∀ e ∈ map, e.2.id = e.1 ∧ ∃ pre comp index post,
    occ = pre ++ (e.1, comp, index) :: post ∧ (∀ o ∈ pre, o.1 ≠ e.1) ∧
    BuiltFrom type comp index e.2

end ProcessData

namespace DataParser


/-- The outcome `r` is made of the pieces of `c` between occurrences of the
delimiter `sep`: `c` is the pieces joined with `sep`, no piece contains `sep`,
`r` is the sequence of the pieces, trimmed, without the empty ones, and `c`
with whitespace deleted is the pieces with whitespace deleted, joined with what
is left of `sep`. -/
def SplitsAtDelimiter (sep c : List Char) (r : Except JSError (List JSVal)) : Prop :=
  ∃ pieces : List (List Char),
    c = List.intercalate sep pieces ∧ (∀ p ∈ pieces, ¬ Contains sep p) ∧
    r = .ok ((trimmedNonEmpty pieces).map .str) ∧
    deleteWhiteSpace c =
      List.intercalate (deleteWhiteSpace sep) (pieces.map deleteWhiteSpace)


/-- The pieces cut the string `c` before the occurrences of the tokens: the
pieces, concatenated, are `c`; every piece after the first begins with a token
(no cut is made elsewhere); and every occurrence of a token after the start of
`c` begins right after an initial run of pieces (a cut is made before it). -/
def CutBeforeTokens (tokens : List (List Char)) (c : List Char)
    (pieces : List (List Char)) : Prop :=
  pieces.flatten = c ∧
  (∀ p ∈ pieces.tail, StartsWithToken tokens p) ∧
  (∀ tok ∈ tokens, ∀ pre suf, c = pre ++ tok ++ suf → pre ≠ [] →
    ∃ k, (pieces.take k).flatten = pre)


/-! ## Outcomes on empty and on whitespace-only input -/

/-- C1: on the empty string and on `undefined`, `cleanSpecString` hands the
empty array to the segmenter, so `parseRAM`, `parseStorage`, `parseCPU` and
`parseGPU` end in a `TypeError`, and `parseDisplay`, `parseDimensions` and
`parseMemoryTypes` return a one-element array holding the empty array; none
returns the empty sequence. -/
theorem empty_input_outcomes :
    (parseRAM (lit "") = .error .typeError ∧ parseRAM .undefined = .error .typeError) ∧
    (parseStorage (lit "") = .error .typeError ∧
      parseStorage .undefined = .error .typeError) ∧
    (parseCPU (lit "") = .error .typeError ∧ parseCPU .undefined = .error .typeError) ∧
    (parseGPU (lit "") = .error .typeError ∧ parseGPU .undefined = .error .typeError) ∧
    (parseDisplay (lit "") = .ok [.emptyArray] ∧
      parseDisplay .undefined = .ok [.emptyArray]) ∧
    (parseDimensions (lit "") = .ok [.emptyArray] ∧
      parseDimensions .undefined = .ok [.emptyArray]) ∧
    (parseMemoryTypes (lit "") = .ok [.emptyArray] ∧
      parseMemoryTypes .undefined = .ok [.emptyArray]) := by
  decide

/-- C2: a string input makes `parseRAM`, `parseStorage`, `parseCPU` and
`parseGPU` raise exactly when it is the empty string; `parseDisplay`,
`parseDimensions` and `parseMemoryTypes` raise on no string. -/
theorem raises_iff_empty_string (s : List Char) :
    (parseRAM (.str s) = .error .typeError ↔ s = []) ∧
    (parseStorage (.str s) = .error .typeError ↔ s = []) ∧
    (parseCPU (.str s) = .error .typeError ↔ s = []) ∧
    (parseGPU (.str s) = .error .typeError ↔ s = []) ∧
    parseDisplay (.str s) ≠ .error .typeError ∧
    parseDimensions (.str s) ≠ .error .typeError ∧
    parseMemoryTypes (.str s) ≠ .error .typeError := by
  cases s with
  | nil => decide
  | cons c t =>
    simp only [parseRAM, parseStorage, parseCPU, parseGPU, parseDisplay, parseDimensions,
      parseMemoryTypes, cleanSpecString, List.isEmpty_cons, Bool.false_eq_true, if_false,
      bind, Except.bind, pure, Except.pure]
    refine ⟨by simp, by simp, by simp, by simp, ?_, ?_, ?_⟩
    · split <;> simp
    · split <;> simp
    · split <;> simp

/-- C3: on a whitespace-only input, and on a bare list marker, the guard
branch of `parseDisplay`, `parseDimensions` and `parseMemoryTypes` returns a
sequence whose only element is the empty string, whereas `parseRAM` and
`parseCPU` return the empty sequence. -/
theorem whitespace_only_outcomes :
    parseDisplay (lit "  ") = .ok [lit ""] ∧
    parseDimensions (lit "  ") = .ok [lit ""] ∧
    parseMemoryTypes (lit "  ") = .ok [lit ""] ∧
    parseDisplay (lit "- \n\t\t\t") = .ok [lit ""] ∧
    parseRAM (lit "  ") = .ok [] ∧
    parseCPU (lit "  ") = .ok [] := by
  decide

/-- C4: on the display string of the specification, `parseDisplay` also cuts
after the first digit of each four-digit width, because the lookahead matches
the last three digits of the width followed by ` x ` and the height. -/
theorem parseDisplay_oled_outcome :
    parseDisplay (lit "1920 x 1200 (OLED)2560 x 1600") =
      .ok (lits ["1", "920 x 1200 (OLED)", "2", "560 x 1600"]) := by
  decide

/-! ## Trimming -/

theorem dropWhile_cons_eq_self {p : Char → Bool} {a : Char} {l : List Char} :
    (a :: l).dropWhile p = a :: l ↔ p a = false := by
  constructor
  · intro h
    by_contra hp
    have hp2 : p a = true := by simpa using hp
    rw [List.dropWhile_cons_of_pos hp2] at h
    have hlen := (List.dropWhile_suffix p (l := l)).length_le
    rw [h] at hlen
    simp at hlen
  · intro h
    simp [List.dropWhile_cons, h]

theorem dropWhile_eq_self_of_head {p : Char → Bool} {l : List Char}
    (h : ∀ c, l.head? = some c → p c = false) : l.dropWhile p = l := by
  cases l with
  | nil => rfl
  | cons a t => exact dropWhile_cons_eq_self.mpr (h a rfl)

theorem head_dropWhile {p : Char → Bool} (l : List Char) :
    ∀ c, (l.dropWhile p).head? = some c → p c = false := by
  induction l with
  | nil => intro c h; simp at h
  | cons a t ih =>
    intro c h
    by_cases hp : p a = true
    · rw [List.dropWhile_cons_of_pos hp] at h
      exact ih c h
    · rw [List.dropWhile_cons_of_neg hp] at h
      simp only [List.head?_cons, Option.some.injEq] at h
      subst h
      simpa using hp

theorem rdropWhile_eq_self_of_last {p : Char → Bool} {l : List Char}
    (h : ∀ c, l.getLast? = some c → p c = false) : l.rdropWhile p = l := by
  rw [List.rdropWhile_eq_self_iff]
  intro hl
  have := h (l.getLast hl) (List.getLast?_eq_getLast _ hl)
  simp [this]

theorem last_rdropWhile {p : Char → Bool} (l : List Char) :
    ∀ c, (l.rdropWhile p).getLast? = some c → p c = false := by
  intro c h
  have hne : l.rdropWhile p ≠ [] := by
    intro h0
    rw [h0] at h
    simp at h
  have := List.rdropWhile_last_not p l hne
  rw [List.getLast?_eq_getLast _ hne] at h
  simp only [Option.some.injEq] at h
  rw [h] at this
  simpa using this

theorem prefix_head {l₁ l₂ : List Char} (h : l₁ <+: l₂) :
    ∀ c, l₁.head? = some c → l₂.head? = some c := by
  obtain ⟨r, rfl⟩ := h
  intro c hc
  cases l₁ with
  | nil => simp at hc
  | cons a t => simpa using hc

theorem trimmed_trim (s : List Char) : Trimmed (trim s) := by
  refine ⟨?_, last_rdropWhile _⟩
  intro c hc
  exact head_dropWhile s c (prefix_head (List.rdropWhile_prefix _ _) c hc)

theorem trim_of_trimmed {s : List Char} (h : Trimmed s) : trim s = s := by
  unfold trim
  rw [dropWhile_eq_self_of_head h.1, rdropWhile_eq_self_of_last h.2]

theorem trim_trim (s : List Char) : trim (trim s) = trim s :=
  trim_of_trimmed (trimmed_trim s)

theorem trim_infix (s : List Char) : ∃ l r, s = l ++ trim s ++ r := by
  obtain ⟨r, hr⟩ := List.rdropWhile_prefix isWhiteSpace (s.dropWhile isWhiteSpace)
  obtain ⟨l, hl⟩ := List.dropWhile_suffix isWhiteSpace (l := s)
  refine ⟨l, r, ?_⟩
  unfold trim
  rw [List.append_assoc, hr, hl]

theorem filter_dropWhile_not (p : Char → Bool) (l : List Char) :
    (l.dropWhile p).filter (fun c => !p c) = l.filter (fun c => !p c) := by
  induction l with
  | nil => rfl
  | cons a t ih =>
    by_cases hp : p a = true
    · rw [List.dropWhile_cons_of_pos hp, ih]
      simp [hp]
    · rw [List.dropWhile_cons_of_neg hp]

theorem filter_rdropWhile_not (p : Char → Bool) (l : List Char) :
    (l.rdropWhile p).filter (fun c => !p c) = l.filter (fun c => !p c) := by
  unfold List.rdropWhile
  rw [List.filter_reverse, filter_dropWhile_not, ← List.filter_reverse, List.reverse_reverse]

theorem deleteWhiteSpace_trim (s : List Char) :
    deleteWhiteSpace (trim s) = deleteWhiteSpace s := by
  unfold deleteWhiteSpace trim
  rw [filter_rdropWhile_not, filter_dropWhile_not]

/-! ## The cleaner on strings -/

theorem cleanSpecString_str_iff {s c : List Char} :
    cleanSpecString (.str s) = .ok (.str c) ↔ s ≠ [] ∧ c = trim (stripMarker s) := by
  cases s with
  | nil => simp [cleanSpecString]
  | cons a t =>
    simp only [cleanSpecString, List.isEmpty_cons, Bool.false_eq_true, if_false,
      Except.ok.injEq, JSVal.str.injEq, ne_eq, reduceCtorEq, not_false_eq_true, true_and]
    exact eq_comm

theorem cleaned_trimmed {s c : List Char} (h : cleanSpecString (.str s) = .ok (.str c)) :
    Trimmed c := by
  rw [cleanSpecString_str_iff] at h
  rw [h.2]
  exact trimmed_trim _

theorem stripMarker_of_no_marker {c : List Char}
    (h : ¬ ∃ w rest, isWhiteSpace w = true ∧ c = '-' :: ' ' :: w :: rest) :
    stripMarker c = c := by
  unfold stripMarker
  split
  · rename_i c1 c2 rest
    split
    · rename_i hcond
      obtain ⟨h1, h2, h3⟩ := hcond
      exfalso
      cases rest with
      | nil => simp at h3
      | cons w r =>
        by_cases hw : isWhiteSpace w = true
        · exact h ⟨w, r, hw, by rw [h1, h2]⟩
        · rw [List.takeWhile_cons_of_neg hw] at h3
          exact h3 rfl
    · rfl
  · rfl

/-! ## Unfolding the segmenters on a cleaned string -/

theorem parseRAM_of_clean {v : JSVal} {c : List Char}
    (h : cleanSpecString v = .ok (.str c)) :
    parseRAM v = .ok ((trimmedNonEmpty (splitOn ['|'] (insertAfterUnit isGB c))).map .str) := by
  simp [parseRAM, h, bind, Except.bind, pure, Except.pure]

theorem parseStorage_of_clean {v : JSVal} {c : List Char}
    (h : cleanSpecString v = .ok (.str c)) :
    parseStorage v =
      .ok ((trimmedNonEmpty (splitOn ['|'] (insertAfterUnit isGBorTB c))).map .str) := by
  simp [parseStorage, h, bind, Except.bind, pure, Except.pure]

theorem parseDisplay_of_clean {v : JSVal} {c : List Char}
    (h : cleanSpecString v = .ok (.str c)) :
    parseDisplay v =
      if includes " x ".toList c = false then .ok [.str c]
      else .ok ((trimmedNonEmpty (splitBefore resolutionAhead c)).map .str) := by
  simp only [parseDisplay, h, bind, Except.bind, pure, Except.pure]
  split <;> simp_all

theorem parseCPU_of_clean {v : JSVal} {c : List Char}
    (h : cleanSpecString v = .ok (.str c)) :
    parseCPU v =
      .ok ((trimmedNonEmpty (splitBefore (startsWithAny cpuTokens) c)).map .str) := by
  simp [parseCPU, h, bind, Except.bind, pure, Except.pure]

theorem parseGPU_of_clean {v : JSVal} {c : List Char}
    (h : cleanSpecString v = .ok (.str c)) :
    parseGPU v =
      .ok ((trimmedNonEmpty (splitBefore (startsWithAny gpuTokens) c)).map .str) := by
  simp [parseGPU, h, bind, Except.bind, pure, Except.pure]

theorem parseDimensions_of_clean {v : JSVal} {c : List Char}
    (h : cleanSpecString v = .ok (.str c)) :
    parseDimensions v =
      if (includes "mm".toList c && includes "inches".toList c) = true then
        .ok ((trimmedNonEmpty (splitOn ['|']
          (insertAfterFirst "inches".toList
            (insertAfterFirst "mm".toList (insertAfterFirst "nm".toList c))))).map .str)
      else .ok [.str c] := by
  simp only [parseDimensions, h, bind, Except.bind, pure, Except.pure]

theorem parseMemoryTypes_of_clean {v : JSVal} {c : List Char}
    (h : cleanSpecString v = .ok (.str c)) :
    parseMemoryTypes v =
      if includes " - ".toList c = true then
        .ok ((trimmedNonEmpty (splitOn " - ".toList c)).map .str)
      else .ok [.str c] := by
  simp only [parseMemoryTypes, h, bind, Except.bind, pure, Except.pure]

/-! ## Substring search -/

theorem includes_iff {pat s : List Char} :
    includes pat s = true ↔ ∃ pre suf, s = pre ++ pat ++ suf := by
  induction s with
  | nil =>
    simp only [includes, List.isPrefixOf_iff_prefix, List.prefix_nil]
    constructor
    · rintro rfl
      exact ⟨[], [], rfl⟩
    · rintro ⟨pre, suf, h⟩
      have := congrArg List.length h
      simp only [List.length_nil, List.length_append] at this
      exact List.length_eq_zero.mp (by omega)
  | cons a t ih =>
    simp only [includes, Bool.or_eq_true, List.isPrefixOf_iff_prefix, ih]
    constructor
    · rintro (⟨r, hr⟩ | ⟨pre, suf, h⟩)
      · exact ⟨[], r, by simpa using hr.symm⟩
      · exact ⟨a :: pre, suf, by simp [h]⟩
    · rintro ⟨pre, suf, h⟩
      cases pre with
      | nil => exact Or.inl ⟨suf, by simpa using h.symm⟩
      | cons b pre =>
        simp only [List.cons_append, List.cons.injEq] at h
        exact Or.inr ⟨pre, suf, h.2⟩

theorem not_occursAfterStart_of_includes {tok s : List Char}
    (h : includes tok s.tail = false) : ¬ OccursAfterStart tok s := by
  rintro ⟨pre, suf, hpre, rfl⟩
  cases pre with
  | nil => exact hpre rfl
  | cons a pre =>
    have : includes tok (pre ++ tok ++ suf) = true := includes_iff.mpr ⟨pre, suf, rfl⟩
    simp only [List.cons_append, List.tail_cons] at h
    rw [this] at h
    exact Bool.noConfusion h

/-! ## Cuts before a lookahead -/

theorem splitBeforeAux_no_cut {look : List Char → Bool} (rest : List Char) :
    ∀ cur : List Char,
      (∀ pre x suf, rest = pre ++ x :: suf → look (x :: suf) = false) →
      splitBeforeAux look cur rest = [cur ++ rest] := by
  induction rest with
  | nil => intro cur _; simp [splitBeforeAux]
  | cons a t ih =>
    intro cur h
    have h0 : look (a :: t) = false := h [] a t rfl
    simp only [splitBeforeAux, h0, Bool.false_eq_true, if_false]
    rw [ih (cur ++ [a]) (fun pre x suf hx => h (a :: pre) x suf (by simp [hx]))]
    simp

theorem startsWithAny_iff {tokens : List (List Char)} {s : List Char} :
    startsWithAny tokens s = true ↔ ∃ tok ∈ tokens, ∃ r, s = tok ++ r := by
  simp only [startsWithAny, List.any_eq_true, List.isPrefixOf_iff_prefix]
  constructor
  · rintro ⟨tok, htok, r, hr⟩
    exact ⟨tok, htok, r, hr.symm⟩
  · rintro ⟨tok, htok, r, hr⟩
    exact ⟨tok, htok, r, hr.symm⟩

theorem splitBefore_no_token {tokens : List (List Char)} {c : List Char}
    (h : ∀ tok ∈ tokens, ¬ OccursAfterStart tok c) :
    splitBefore (startsWithAny tokens) c = [c] := by
  cases c with
  | nil => rfl
  | cons a rest =>
    show splitBeforeAux (startsWithAny tokens) [a] rest = [a :: rest]
    rw [splitBeforeAux_no_cut]
    · simp
    · intro pre x suf hx
      by_contra hlook
      have hlook2 : startsWithAny tokens (x :: suf) = true := by simpa using hlook
      obtain ⟨tok, htok, r, hr⟩ := startsWithAny_iff.mp hlook2
      exact h tok htok ⟨a :: pre, r, by simp, by rw [hx, hr]; simp⟩

theorem trimmedNonEmpty_single {c : List Char} (ht : Trimmed c) (hne : c ≠ []) :
    trimmedNonEmpty [c] = [c] := by
  cases c with
  | nil => exact absurd rfl hne
  | cons a t =>
    simp [trimmedNonEmpty, trim_of_trimmed ht]

/-! ## Every split cuts the string it is given -/

theorem cut_consHead {G : List Char → Prop} {ps : List (List Char)} {s : List Char}
    (a : Char) (h : Cut G ps s) : Cut G (consHead a ps) (a :: s) := by
  cases h with
  | single => exact Cut.single (a :: s)
  | cons p g hg hcut => exact Cut.cons (a :: p) g hg hcut

theorem cut_splitBeforeAux (look : List Char → Bool) (rest : List Char) :
    ∀ cur : List Char, Cut (fun g => g = []) (splitBeforeAux look cur rest) (cur ++ rest) := by
  induction rest with
  | nil =>
    intro cur
    simp only [splitBeforeAux, List.append_nil]
    exact Cut.single cur
  | cons a t ih =>
    intro cur
    simp only [splitBeforeAux]
    split
    · have := Cut.cons (G := fun g => g = []) cur [] rfl (ih [a])
      simpa using this
    · have := ih (cur ++ [a])
      simpa using this

theorem cut_splitBefore (look : List Char → Bool) (c : List Char) :
    Cut (fun g => g = []) (splitBefore look c) c := by
  cases c with
  | nil => exact Cut.single []
  | cons a rest => exact cut_splitBeforeAux look rest [a]

theorem splitOn_single_cons (p a : Char) (t : List Char) :
    splitOn [p] (a :: t) =
      if p = a then [] :: splitOn [p] t else consHead a (splitOn [p] t) := by
  simp [splitOn, splitOnAux, List.isPrefixOf]

theorem cut_splitOn_pipe {s t : List Char} (h : PipeIns s t) :
    Cut (fun g => g = [] ∨ g = ['|']) (splitOn ['|'] t) s := by
  induction h with
  | nil => exact Cut.single []
  | keep a _ ih =>
    rw [splitOn_single_cons]
    split
    · rename_i ha
      subst ha
      exact Cut.cons [] ['|'] (Or.inr rfl) ih
    · exact cut_consHead a ih
  | ins _ ih =>
    rw [splitOn_single_cons, if_pos rfl]
    exact Cut.cons [] [] (Or.inl rfl) ih

theorem splitOnAux_skip (sep : List Char) (pre r : List Char) :
    splitOnAux sep pre.length (pre ++ r) = splitOnAux sep 0 r := by
  induction pre with
  | nil => rfl
  | cons a t ih =>
    simp only [List.length_cons, List.cons_append, splitOnAux]
    exact ih

theorem cut_splitOnAux (sep : List Char) (hsep : sep ≠ []) (n : Nat) :
    ∀ s : List Char, s.length ≤ n → Cut (fun g => g = sep) (splitOnAux sep 0 s) s := by
  induction n with
  | zero =>
    intro s hs
    have : s = [] := List.length_eq_zero.mp (by omega)
    subst this
    exact Cut.single []
  | succ n ih =>
    intro s hs
    cases s with
    | nil => exact Cut.single []
    | cons a t =>
      simp only [splitOnAux]
      split
      · rename_i hpre
        rw [List.isPrefixOf_iff_prefix] at hpre
        obtain ⟨r, hr⟩ := hpre
        cases sep with
        | nil => exact absurd rfl hsep
        | cons b sep =>
          simp only [List.cons_append, List.cons.injEq] at hr
          obtain ⟨rfl, rfl⟩ := hr
          simp only [List.length_cons, Nat.add_sub_cancel]
          rw [splitOnAux_skip]
          have hlen : r.length ≤ n := by
            simp only [List.length_cons, List.length_append] at hs
            omega
          have := Cut.cons (G := fun g => g = b :: sep) [] (b :: sep) rfl (ih r hlen)
          simpa using this
      · exact cut_consHead a (ih t (by simpa using hs))

theorem cut_splitOn (sep : List Char) (hsep : sep ≠ []) (s : List Char) :
    Cut (fun g => g = sep) (splitOn sep s) s :=
  cut_splitOnAux sep hsep s.length s (Nat.le_refl _)

/-! ## Inserted markers -/

theorem pipeIns_refl (s : List Char) : PipeIns s s := by
  induction s with
  | nil => exact PipeIns.nil
  | cons a t ih => exact PipeIns.keep a ih

theorem pipeIns_trans {s t u : List Char} (h₁ : PipeIns s t) (h₂ : PipeIns t u) :
    PipeIns s u := by
  induction h₂ generalizing s with
  | nil => exact h₁
  | keep a _ ih =>
    cases h₁ with
    | keep _ h => exact PipeIns.keep a (ih h)
    | ins h => exact PipeIns.ins (ih h)
  | ins _ ih => exact PipeIns.ins (ih h₁)

theorem pipeIns_append_ins (a b : List Char) : PipeIns (a ++ b) (a ++ '|' :: b) := by
  induction a with
  | nil => exact PipeIns.ins (pipeIns_refl b)
  | cons x t ih => exact PipeIns.keep x ih

theorem pipeIns_insertAfterFirst (pat s : List Char) :
    PipeIns s (insertAfterFirst pat s) := by
  induction s with
  | nil => exact PipeIns.nil
  | cons a t ih =>
    simp only [insertAfterFirst]
    split
    · rename_i hpre
      rw [List.isPrefixOf_iff_prefix] at hpre
      obtain ⟨r, hr⟩ := hpre
      rw [← hr, List.drop_left]
      exact pipeIns_append_ins pat r
    · exact PipeIns.keep a ih

theorem pipeIns_insertAfterUnit (isUnit : Char → Char → Bool) (n : Nat) :
    ∀ s : List Char, s.length ≤ n → PipeIns s (insertAfterUnit isUnit s) := by
  induction n with
  | zero =>
    intro s hs
    have : s = [] := List.length_eq_zero.mp (by omega)
    subst this
    exact PipeIns.nil
  | succ n ih =>
    intro s hs
    match s, hs with
    | [], _ => exact PipeIns.nil
    | [a], _ => exact PipeIns.keep a PipeIns.nil
    | c1 :: c2 :: rest, hs =>
      simp only [insertAfterUnit]
      simp only [List.length_cons] at hs
      split
      · exact PipeIns.keep c1 (PipeIns.keep c2 (PipeIns.ins (ih rest (by omega))))
      · exact PipeIns.keep c1 (ih (c2 :: rest) (by simp only [List.length_cons]; omega))

theorem cut_no_pipe {ps : List (List Char)} {s : List Char}
    (h : Cut (fun g => g = [] ∨ g = ['|']) ps s) (hs : '|' ∉ s) :
    Cut (fun g => g = []) ps s := by
  induction h with
  | single => exact Cut.single _
  | cons p g hg _ ih =>
    rcases hg with rfl | rfl
    · exact Cut.cons p [] rfl (ih (fun hm => hs (by simp [hm])))
    · exact absurd (by simp) hs

/-! ## Trimming the pieces of a cut -/

theorem inOrder_prepend (g : List Char) {segs : List (List Char)} {s : List Char}
    (h : InOrder segs s) : InOrder segs (g ++ s) := by
  cases h with
  | nil => exact InOrder.nil _
  | cons g' seg hne hrest =>
    have := InOrder.cons (g ++ g') seg hne hrest
    simpa using this

theorem trimmedNonEmpty_cons (p : List Char) (ps : List (List Char)) :
    trimmedNonEmpty (p :: ps) =
      if trim p = [] then trimmedNonEmpty ps else trim p :: trimmedNonEmpty ps := by
  unfold trimmedNonEmpty
  by_cases h : trim p = []
  · simp [h]
  · have : (trim p).isEmpty = false := by
      cases hp : trim p with
      | nil => exact absurd hp h
      | cons a t => rfl
    simp [h, this]

theorem inOrder_piece (p : List Char) {segs : List (List Char)} {s : List Char}
    (h : InOrder segs s) :
    InOrder (if trim p = [] then segs else trim p :: segs) (p ++ s) := by
  split
  · exact inOrder_prepend p h
  · rename_i hne
    obtain ⟨l, r, hlr⟩ := trim_infix p
    have := InOrder.cons l (trim p) hne (inOrder_prepend r h)
    have heq : l ++ trim p ++ (r ++ s) = p ++ s := by
      conv_rhs => rw [hlr]
      simp
    rw [heq] at this
    exact this

theorem inOrder_of_cut {G : List Char → Prop} {ps : List (List Char)} {s : List Char}
    (h : Cut G ps s) : InOrder (trimmedNonEmpty ps) s := by
  induction h with
  | single =>
    rename_i p
    rw [trimmedNonEmpty_cons]
    have := inOrder_piece p (InOrder.nil [])
    simpa [trimmedNonEmpty] using this
  | cons p g _ _ ih =>
    rw [trimmedNonEmpty_cons, List.append_assoc]
    exact inOrder_piece p (inOrder_prepend g ih)

theorem placed_of_inOrder {segs : List (List Char)} {s : List Char} (h : InOrder segs s) :
    ∀ pre : List Char, ∃ starts : List Nat,
      Placed (pre ++ s) segs starts ∧ ∀ st ∈ starts, pre.length ≤ st := by
  induction h with
  | nil s =>
    intro pre
    exact ⟨[], trivial, by simp⟩
  | @cons g seg segs s hne _ ih =>
    intro pre
    obtain ⟨starts, hpl, hge⟩ := ih (pre ++ g ++ seg)
    refine ⟨(pre ++ g).length :: starts, ?_, ?_⟩
    · have heq : pre ++ (g ++ seg ++ s) = pre ++ g ++ seg ++ s := by simp
      rw [heq]
      refine ⟨?_, ?_, ?_, hpl⟩
      · rw [List.append_assoc (pre ++ g), List.drop_left, List.take_left]
      · simp only [List.length_append]
        omega
      · intro nxt hnxt
        have hmem : nxt ∈ starts := List.mem_of_mem_head? hnxt
        have := hge nxt hmem
        have hlen : 0 < seg.length := List.length_pos.mpr hne
        simp only [List.length_append] at this ⊢
        omega
    · intro st hst
      rcases List.mem_cons.mp hst with rfl | hst
      · simp
      · have := hge st hst
        simp only [List.length_append] at this
        omega

/-! ## Deleting characters from a cut -/

theorem filter_trim {f : Char → Bool} (hf : ∀ c, f c = true → isWhiteSpace c = false)
    (p : List Char) : (trim p).filter f = p.filter f := by
  have key : ∀ l : List Char, l.filter f = (deleteWhiteSpace l).filter f := by
    intro l
    unfold deleteWhiteSpace
    rw [List.filter_filter]
    congr 1
    funext c
    cases hfc : f c with
    | false => simp
    | true => simp [hf c hfc]
  rw [key (trim p), key p, deleteWhiteSpace_trim]

theorem filter_trimmedNonEmpty {f : Char → Bool}
    (hf : ∀ c, f c = true → isWhiteSpace c = false) (ps : List (List Char)) :
    (trimmedNonEmpty ps).flatten.filter f = ps.flatten.filter f := by
  induction ps with
  | nil => rfl
  | cons p ps ih =>
    rw [trimmedNonEmpty_cons]
    split
    · rename_i h0
      rw [ih, List.flatten_cons, List.filter_append, ← filter_trim hf p, h0]
      rfl
    · rw [List.flatten_cons, List.flatten_cons, List.filter_append, List.filter_append, ih,
        filter_trim hf p]

theorem filter_of_cut {G : List Char → Prop} {f : Char → Bool}
    (hG : ∀ g, G g → g.filter f = []) {ps : List (List Char)} {s : List Char}
    (h : Cut G ps s) : s.filter f = ps.flatten.filter f := by
  induction h with
  | single => simp
  | cons p g hg _ ih =>
    rw [List.flatten_cons, List.filter_append, List.filter_append, List.filter_append, hG g hg,
      ih]
    simp

theorem placed_of_cut {G : List Char → Prop} {ps : List (List Char)} {c : List Char}
    (h : Cut G ps c) : ∃ starts, Placed c (trimmedNonEmpty ps) starts := by
  obtain ⟨starts, hpl, _⟩ := placed_of_inOrder (inOrder_of_cut h) []
  exact ⟨starts, by simpa using hpl⟩

theorem placed_single (c : List Char) : Placed c [c] [0] := by
  refine ⟨by simp, by simp, ?_, trivial⟩
  intro nxt h
  simp at h

theorem pipeIns_dimensions (c : List Char) :
    PipeIns c (insertAfterFirst "inches".toList
      (insertAfterFirst "mm".toList (insertAfterFirst "nm".toList c))) :=
  pipeIns_trans (pipeIns_trans (pipeIns_insertAfterFirst _ c) (pipeIns_insertAfterFirst _ _))
    (pipeIns_insertAfterFirst _ _)

theorem reconstructs_of_cut {keep : Char → Bool}
    (hk : ∀ c, keep c = true → isWhiteSpace c = false) {G : List Char → Prop}
    (hG : ∀ g, G g → g.filter keep = []) {ps : List (List Char)} {c : List Char}
    (h : Cut G ps c) :
    Reconstructs keep c (.ok ((trimmedNonEmpty ps).map .str)) :=
  ⟨trimmedNonEmpty ps, rfl, by rw [filter_trimmedNonEmpty hk, filter_of_cut hG h]⟩

theorem reconstructs_single (keep : Char → Bool) (c : List Char) :
    Reconstructs keep c (.ok [.str c]) :=
  ⟨[c], rfl, by simp⟩

theorem notSpace_imp (c : Char) (h : notSpace c = true) : isWhiteSpace c = false := by
  simpa [notSpace] using h

/-! ## Units followed by a digit -/

theorem unitBeforeDigit_tail {isUnit : Char → Char → Bool} {a : Char} {t : List Char}
    (h : UnitBeforeDigit isUnit t) : UnitBeforeDigit isUnit (a :: t) := by
  obtain ⟨pre, c1, c2, d, suf, hu, hd, rfl⟩ := h
  exact ⟨a :: pre, c1, c2, d, suf, hu, hd, rfl⟩

theorem unitBeforeDigit_cons {isUnit : Char → Char → Bool} {a : Char} {t : List Char}
    (h : UnitBeforeDigit isUnit (a :: t)) :
    (∃ c2 d suf, isUnit a c2 = true ∧ isDigit d = true ∧ t = c2 :: d :: suf) ∨
      UnitBeforeDigit isUnit t := by
  obtain ⟨pre, c1, c2, d, suf, hu, hd, h⟩ := h
  cases pre with
  | nil =>
    simp only [List.nil_append, List.cons.injEq] at h
    obtain ⟨rfl, rfl⟩ := h
    exact Or.inl ⟨c2, d, suf, hu, hd, rfl⟩
  | cons b pre =>
    simp only [List.cons_append, List.cons.injEq] at h
    exact Or.inr ⟨pre, c1, c2, d, suf, hu, hd, h.2⟩

theorem hasUnitBeforeDigit_iff (isUnit : Char → Char → Bool) (n : Nat) :
    ∀ s : List Char, s.length ≤ n →
      (hasUnitBeforeDigit isUnit s = true ↔ UnitBeforeDigit isUnit s) := by
  induction n with
  | zero =>
    intro s hs
    have : s = [] := List.length_eq_zero.mp (by omega)
    subst this
    simp only [hasUnitBeforeDigit, Bool.false_eq_true, false_iff]
    rintro ⟨pre, c1, c2, d, suf, _, _, h⟩
    simp at h
  | succ n ih =>
    intro s hs
    match s, hs with
    | [], _ =>
      simp only [hasUnitBeforeDigit, Bool.false_eq_true, false_iff]
      rintro ⟨pre, c1, c2, d, suf, _, _, h⟩
      simp at h
    | [a], _ =>
      simp only [hasUnitBeforeDigit, Bool.false_eq_true, false_iff]
      rintro ⟨pre, c1, c2, d, suf, _, _, h⟩
      have := congrArg List.length h
      simp at this
      omega
    | [a, b], _ =>
      simp only [hasUnitBeforeDigit, Bool.false_eq_true, false_iff]
      rintro ⟨pre, c1, c2, d, suf, _, _, h⟩
      have := congrArg List.length h
      simp at this
      omega
    | c1 :: c2 :: d :: rest, hs =>
      have hlen : (c2 :: d :: rest).length ≤ n := by
        simp only [List.length_cons] at hs ⊢
        omega
      simp only [hasUnitBeforeDigit, Bool.or_eq_true, Bool.and_eq_true, ih _ hlen]
      constructor
      · rintro (⟨hu, hd⟩ | h)
        · exact ⟨[], c1, c2, d, rest, hu, hd, rfl⟩
        · exact unitBeforeDigit_tail h
      · intro h
        rcases unitBeforeDigit_cons h with ⟨c2', d', suf, hu, hd, heq⟩ | h
        · simp only [List.cons.injEq] at heq
          obtain ⟨rfl, rfl, _⟩ := heq
          exact Or.inl ⟨hu, hd⟩
        · exact Or.inr h

theorem insertAfterUnit_of_no_unit (isUnit : Char → Char → Bool) (n : Nat) :
    ∀ s : List Char, s.length ≤ n → ¬ UnitBeforeDigit isUnit s →
      insertAfterUnit isUnit s = s := by
  induction n with
  | zero =>
    intro s hs _
    have : s = [] := List.length_eq_zero.mp (by omega)
    subst this
    rfl
  | succ n ih =>
    intro s hs hno
    match s, hs, hno with
    | [], _, _ => rfl
    | [a], _, _ => rfl
    | c1 :: c2 :: rest, hs, hno =>
      simp only [List.length_cons] at hs
      simp only [insertAfterUnit]
      split
      · rename_i hcond
        simp only [Bool.and_eq_true] at hcond
        exfalso
        cases rest with
        | nil => simp [startsWithDigit] at hcond
        | cons d suf => exact hno ⟨[], c1, c2, d, suf, hcond.1, hcond.2, rfl⟩
      · rw [ih (c2 :: rest) (by simp only [List.length_cons]; omega)
          (fun h => hno (unitBeforeDigit_tail h))]

theorem splitOn_no_sep {p : Char} {s : List Char} (h : p ∉ s) : splitOn [p] s = [s] := by
  induction s with
  | nil => rfl
  | cons a t ih =>
    simp only [List.mem_cons, not_or] at h
    rw [splitOn_single_cons, if_neg h.1, ih h.2]
    rfl

theorem splitOn_append_sep {p : Char} {s : List Char} (h : p ∉ s) (t : List Char) :
    splitOn [p] (s ++ p :: t) = s :: splitOn [p] t := by
  induction s with
  | nil =>
    rw [List.nil_append, splitOn_single_cons, if_pos rfl]
  | cons a r ih =>
    simp only [List.mem_cons, not_or] at h
    rw [List.cons_append, splitOn_single_cons, if_neg h.1, ih h.2]
    rfl

/-! ## Concatenated `GB` values -/

theorem isDigit_not_whiteSpace {c : Char} (h : isDigit c = true) : isWhiteSpace c = false := by
  simp only [isDigit, Bool.and_eq_true, decide_eq_true_eq] at h
  simp only [isWhiteSpace, Bool.or_eq_false_iff, Bool.and_eq_false_imp, decide_eq_true_eq,
    decide_eq_false_iff_not, beq_eq_false_iff_ne, ne_eq]
  omega

theorem isDigit_ne {c a : Char} (h : isDigit c = true) (ha : isDigit a = false) : c ≠ a := by
  rintro rfl
  rw [h] at ha
  exact Bool.noConfusion ha

theorem insertAfterUnit_cons_of_not_unit {isUnit : Char → Char → Bool} {a : Char}
    (h : ∀ b, isUnit a b = false) (t : List Char) :
    insertAfterUnit isUnit (a :: t) = a :: insertAfterUnit isUnit t := by
  cases t with
  | nil => rfl
  | cons b r => simp [insertAfterUnit, h b]

theorem insertAfterUnit_digits {ds : List Char} (hds : ∀ d ∈ ds, isDigit d = true)
    (t : List Char) :
    insertAfterUnit isGB (ds ++ t) = ds ++ insertAfterUnit isGB t := by
  induction ds with
  | nil => rfl
  | cons d r ih =>
    have hd : isDigit d = true := hds d (List.mem_cons_self _ _)
    have hne : d ≠ 'G' := isDigit_ne hd (by decide)
    rw [List.cons_append, insertAfterUnit_cons_of_not_unit, ih
      (fun x hx => hds x (List.mem_cons_of_mem _ hx))]
    · rfl
    · intro b
      simp [isGB, hne]

theorem gbValues_head {vals : List (List Char)} (hne : vals ≠ [])
    (hv : ∀ v ∈ vals, IsGBValue v) :
    ∃ d t, isDigit d = true ∧ vals.flatten = d :: t := by
  cases vals with
  | nil => exact absurd rfl hne
  | cons v rest =>
    obtain ⟨ds, hds, hdig, rfl⟩ := hv v (List.mem_cons_self _ _)
    cases ds with
    | nil => exact absurd rfl hds
    | cons d r =>
      exact ⟨d, r ++ ['G', 'B'] ++ rest.flatten, hdig d (List.mem_cons_self _ _), by simp⟩

theorem gbValues_last {vals : List (List Char)} (hne : vals ≠ [])
    (hv : ∀ v ∈ vals, IsGBValue v) : ∃ u, vals.flatten = u ++ ['G', 'B'] := by
  induction vals with
  | nil => exact absurd rfl hne
  | cons v rest ih =>
    cases rest with
    | nil =>
      obtain ⟨ds, _, _, rfl⟩ := hv v (List.mem_cons_self _ _)
      exact ⟨ds, by simp⟩
    | cons v' rest' =>
      obtain ⟨u, hu⟩ := ih (by simp) (fun x hx => hv x (List.mem_cons_of_mem _ hx))
      exact ⟨v ++ u, by rw [List.flatten_cons, hu, List.append_assoc]⟩

theorem trimmed_of_digit_head {d : Char} {t u : List Char} (hd : isDigit d = true)
    (h : d :: t = u ++ ['G', 'B']) : Trimmed (d :: t) := by
  constructor
  · intro c hcd
    simp only [List.head?_cons, Option.some.injEq] at hcd
    subst hcd
    exact isDigit_not_whiteSpace hd
  · intro c hcl
    rw [h] at hcl
    have : (u ++ ['G', 'B']).getLast? = some 'B' := by simp
    rw [this] at hcl
    simp only [Option.some.injEq] at hcl
    subst hcl
    decide

theorem gbValue_trimmed {v : List Char} (h : IsGBValue v) : Trimmed v ∧ v ≠ [] := by
  obtain ⟨ds, hds, hdig, rfl⟩ := h
  cases ds with
  | nil => exact absurd rfl hds
  | cons d r =>
    exact ⟨trimmed_of_digit_head (u := d :: r) (hdig d (List.mem_cons_self _ _)) rfl,
      by simp⟩

theorem gbValue_no_pipe {v : List Char} (h : IsGBValue v) : '|' ∉ v := by
  obtain ⟨ds, _, hdig, rfl⟩ := h
  intro hm
  rcases List.mem_append.mp hm with hm | hm
  · exact absurd (hdig _ hm) (by decide)
  · exact absurd hm (by decide)

theorem trimmedNonEmpty_values {vals : List (List Char)}
    (hv : ∀ v ∈ vals, Trimmed v ∧ v ≠ []) : trimmedNonEmpty vals = vals := by
  induction vals with
  | nil => rfl
  | cons v rest ih =>
    have h := hv v (List.mem_cons_self _ _)
    rw [trimmedNonEmpty_cons, trim_of_trimmed h.1, if_neg h.2,
      ih (fun x hx => hv x (List.mem_cons_of_mem _ hx))]

theorem splitOn_insertAfterUnit_values {vals : List (List Char)} (hne : vals ≠ [])
    (hv : ∀ v ∈ vals, IsGBValue v) :
    splitOn ['|'] (insertAfterUnit isGB vals.flatten) = vals := by
  induction vals with
  | nil => exact absurd rfl hne
  | cons v rest ih =>
    have hvv := hv v (List.mem_cons_self _ _)
    have hpipe := gbValue_no_pipe hvv
    obtain ⟨ds, _, hdig, rfl⟩ := hvv
    have hrest : ∀ x ∈ rest, IsGBValue x := fun x hx => hv x (List.mem_cons_of_mem _ hx)
    rw [List.flatten_cons, List.append_assoc, insertAfterUnit_digits hdig]
    cases rest with
    | nil =>
      have : insertAfterUnit isGB (['G', 'B'] ++ ([] : List (List Char)).flatten) =
          ['G', 'B'] := by
        decide
      rw [this, splitOn_no_sep hpipe]
    | cons v' rest' =>
      obtain ⟨d, t, hd, ht⟩ := gbValues_head (by simp) hrest
      have hstep : insertAfterUnit isGB (['G', 'B'] ++ (v' :: rest').flatten) =
          ['G', 'B'] ++ '|' :: insertAfterUnit isGB (v' :: rest').flatten := by
        rw [ht]
        simp [insertAfterUnit, isGB, startsWithDigit, hd]
      rw [hstep, ← List.append_assoc, splitOn_append_sep hpipe, ih (by simp) hrest]

/-! ## A single processor name -/

/-- C5, as stated, fails: the cleaned single-processor name
`Qualcomm Snapdragon 8cx Gen 3` is cut before `Snapdragon`. -/
theorem parseCPU_qualcomm_snapdragon_cut :
    cleanSpecString (lit "Qualcomm Snapdragon 8cx Gen 3") =
      .ok (lit "Qualcomm Snapdragon 8cx Gen 3") ∧
    parseCPU (lit "Qualcomm Snapdragon 8cx Gen 3") =
      .ok (lits ["Qualcomm", "Snapdragon 8cx Gen 3"]) ∧
    parseCPU (lit "Qualcomm Snapdragon 8cx Gen 3") ≠
      .ok [lit "Qualcomm Snapdragon 8cx Gen 3"] := by
  decide

/-- C5, amended: when the cleaned string `c` of the input is non-empty and no
brand token of `parseCPU` occurs in it at a position other than the start,
`parseCPU` returns the one-element sequence `[c]`. -/
theorem parseCPU_single (s c : List Char)
    (hc : cleanSpecString (.str s) = .ok (.str c)) (hne : c ≠ [])
    (hno : ∀ tok ∈ cpuTokens, ¬ OccursAfterStart tok c) :
    parseCPU (.str s) = .ok [.str c] := by
  rw [parseCPU_of_clean hc, splitBefore_no_token hno,
    trimmedNonEmpty_single (cleaned_trimmed hc) hne]
  rfl

/-- C5, amended, at `Intel Core i7-12700H`. -/
theorem parseCPU_single_witness :
    parseCPU (lit "Intel Core i7-12700H") = .ok [lit "Intel Core i7-12700H"] :=
  parseCPU_single "Intel Core i7-12700H".toList "Intel Core i7-12700H".toList
    (by decide) (by decide)
    (fun tok htok => not_occursAfterStart_of_includes
      ((by decide : ∀ t ∈ cpuTokens,
        includes t "Intel Core i7-12700H".toList.tail = false) tok htok))

/-! ## Cleaning twice -/

/-- C6, as stated, fails: a list marker behind a leading space survives the
first cleaning and is removed by the second. -/
theorem cleanSpecString_twice_differs :
    cleanSpecString (lit " - \n\t\t\t16GB") = .ok (lit "- \n\t\t\t16GB") ∧
    (cleanSpecString (lit " - \n\t\t\t16GB") >>= cleanSpecString) = .ok (lit "16GB") ∧
    (cleanSpecString (lit " - \n\t\t\t16GB") >>= cleanSpecString) ≠
      cleanSpecString (lit " - \n\t\t\t16GB") := by
  decide

/-- C6, amended: when the cleaned form `c` of a string is non-empty and does
not begin with a dash, a space and a whitespace character, cleaning it again
returns it unchanged. -/
theorem cleanSpecString_idempotent (s c : List Char)
    (hc : cleanSpecString (.str s) = .ok (.str c)) (hne : c ≠ [])
    (hmark : ¬ ∃ w rest, isWhiteSpace w = true ∧ c = '-' :: ' ' :: w :: rest) :
    (cleanSpecString (.str s) >>= cleanSpecString) = cleanSpecString (.str s) := by
  rw [hc]
  show cleanSpecString (.str c) = .ok (.str c)
  rw [cleanSpecString_str_iff]
  refine ⟨hne, ?_⟩
  rw [stripMarker_of_no_marker hmark, trim_of_trimmed (cleaned_trimmed hc)]

/-- C6, amended, at the marker artifact in front of `16GB`. -/
theorem cleanSpecString_idempotent_witness :
    (cleanSpecString (lit "- \n\t\t\t16GB") >>= cleanSpecString) =
      cleanSpecString (lit "- \n\t\t\t16GB") :=
  cleanSpecString_idempotent "- \n\t\t\t16GB".toList "16GB".toList (by decide) (by decide)
    (by
      rintro ⟨w, rest, _, h⟩
      have h1 : '1' = '-' := (List.cons.inj h).1
      exact absurd h1 (by decide))

/-! ## Segments lie in the cleaned string, in order -/

/-- C8: for an input string whose cleaned string is `c` (every non-empty
string has one), each of the seven segmenters returns strings that occur in
`c` as contiguous substrings, none overlapping the next, at strictly
increasing start positions. -/
theorem segments_in_order (s c : List Char)
    (hc : cleanSpecString (.str s) = .ok (.str c)) :
    SegmentsPlaced c (parseRAM (.str s)) ∧
    SegmentsPlaced c (parseStorage (.str s)) ∧
    SegmentsPlaced c (parseDisplay (.str s)) ∧
    SegmentsPlaced c (parseCPU (.str s)) ∧
    SegmentsPlaced c (parseGPU (.str s)) ∧
    SegmentsPlaced c (parseDimensions (.str s)) ∧
    SegmentsPlaced c (parseMemoryTypes (.str s)) := by
  have single : SegmentsPlaced c (.ok [.str c]) := ⟨[c], [0], rfl, placed_single c⟩
  have ofCut : ∀ {G : List Char → Prop} {ps : List (List Char)}, Cut G ps c →
      SegmentsPlaced c (.ok ((trimmedNonEmpty ps).map .str)) := by
    intro G ps h
    obtain ⟨starts, hpl⟩ := placed_of_cut h
    exact ⟨_, starts, rfl, hpl⟩
  refine ⟨?_, ?_, ?_, ?_, ?_, ?_, ?_⟩
  · rw [parseRAM_of_clean hc]
    exact ofCut (cut_splitOn_pipe (pipeIns_insertAfterUnit _ _ c (Nat.le_refl _)))
  · rw [parseStorage_of_clean hc]
    exact ofCut (cut_splitOn_pipe (pipeIns_insertAfterUnit _ _ c (Nat.le_refl _)))
  · rw [parseDisplay_of_clean hc]
    split
    · exact single
    · exact ofCut (cut_splitBefore _ c)
  · rw [parseCPU_of_clean hc]
    exact ofCut (cut_splitBefore _ c)
  · rw [parseGPU_of_clean hc]
    exact ofCut (cut_splitBefore _ c)
  · rw [parseDimensions_of_clean hc]
    split
    · exact ofCut (cut_splitOn_pipe (pipeIns_dimensions c))
    · exact single
  · rw [parseMemoryTypes_of_clean hc]
    split
    · exact ofCut (cut_splitOn " - ".toList (by decide) c)
    · exact single

/-- C8 at the input `16GB8GB` of `parseRAM`. -/
theorem segments_in_order_witness :
    SegmentsPlaced "16GB8GB".toList (parseRAM (lit "16GB8GB")) :=
  (segments_in_order "16GB8GB".toList "16GB8GB".toList (by decide)).1

/-! ## No delimiter: one segment -/

/-- C9, as stated, fails: a `|` in the cleaned string is a split point of
`parseRAM` and of `parseStorage`, although no unit is followed by a digit. -/
theorem parseRAM_splits_on_pipe :
    cleanSpecString (lit "8GB | 16GB") = .ok (lit "8GB | 16GB") ∧
    ¬ UnitBeforeDigit isGB "8GB | 16GB".toList ∧
    ¬ UnitBeforeDigit isGBorTB "8GB | 16GB".toList ∧
    parseRAM (lit "8GB | 16GB") = .ok (lits ["8GB", "16GB"]) ∧
    parseRAM (lit "8GB | 16GB") ≠ .ok [lit "8GB | 16GB"] ∧
    parseStorage (lit "8GB | 16GB") ≠ .ok [lit "8GB | 16GB"] :=
  ⟨by decide,
    fun h => absurd ((hasUnitBeforeDigit_iff isGB _ _ (Nat.le_refl _)).mpr h) (by decide),
    fun h => absurd ((hasUnitBeforeDigit_iff isGBorTB _ _ (Nat.le_refl _)).mpr h) (by decide),
    by decide, by decide, by decide⟩

/-- C9, amended: when the cleaned string `c` of the input is non-empty and
has no `|`, `parseRAM` returns `[c]` if no `GB` of `c` is immediately followed
by a digit, and `parseStorage` returns `[c]` if no `GB` or `TB` of `c` is
immediately followed by a digit. -/
theorem no_unit_single_segment (s c : List Char)
    (hc : cleanSpecString (.str s) = .ok (.str c)) (hne : c ≠ []) (hpipe : '|' ∉ c) :
    (¬ UnitBeforeDigit isGB c → parseRAM (.str s) = .ok [.str c]) ∧
    (¬ UnitBeforeDigit isGBorTB c → parseStorage (.str s) = .ok [.str c]) := by
  constructor
  · intro hno
    rw [parseRAM_of_clean hc, insertAfterUnit_of_no_unit _ _ c (Nat.le_refl _) hno,
      splitOn_no_sep hpipe, trimmedNonEmpty_single (cleaned_trimmed hc) hne]
    rfl
  · intro hno
    rw [parseStorage_of_clean hc, insertAfterUnit_of_no_unit _ _ c (Nat.le_refl _) hno,
      splitOn_no_sep hpipe, trimmedNonEmpty_single (cleaned_trimmed hc) hne]
    rfl

/-- C9, amended, at the input `16 GB DDR5` of `parseRAM`. -/
theorem no_unit_single_segment_witness :
    parseRAM (lit "16 GB DDR5") = .ok [lit "16 GB DDR5"] :=
  (no_unit_single_segment "16 GB DDR5".toList "16 GB DDR5".toList (by decide) (by decide)
    (by decide)).1
    (fun h => absurd ((hasUnitBeforeDigit_iff isGB _ _ (Nat.le_refl _)).mpr h) (by decide))

/-! ## Concatenated RAM values -/

/-- C10: for a non-empty list of values, each made of one or more decimal
digits followed by `GB`, `parseRAM` applied to their concatenation returns
exactly that list, in order. -/
theorem parseRAM_concat (vals : List (List Char)) (hne : vals ≠ [])
    (hv : ∀ v ∈ vals, IsGBValue v) :
    parseRAM (.str vals.flatten) = .ok (vals.map .str) := by
  obtain ⟨d, t, hd, ht⟩ := gbValues_head hne hv
  obtain ⟨u, hu⟩ := gbValues_last hne hv
  have htr : Trimmed vals.flatten := by
    rw [ht]
    exact trimmed_of_digit_head hd (by rw [← ht, hu])
  have hclean : cleanSpecString (.str vals.flatten) = .ok (.str vals.flatten) := by
    rw [cleanSpecString_str_iff]
    refine ⟨by rw [ht]; simp, ?_⟩
    rw [stripMarker_of_no_marker, trim_of_trimmed htr]
    rintro ⟨w, r, _, h⟩
    rw [ht] at h
    have hd2 : d = '-' := (List.cons.inj h).1
    rw [hd2] at hd
    exact absurd hd (by decide)
  rw [parseRAM_of_clean hclean, splitOn_insertAfterUnit_values hne hv,
    trimmedNonEmpty_values (fun v h => gbValue_trimmed (hv v h))]

/-- C10 at the values `16GB` and `8GB`. -/
theorem parseRAM_concat_witness :
    parseRAM (lit "16GB8GB") = .ok (lits ["16GB", "8GB"]) :=
  parseRAM_concat ["16GB".toList, "8GB".toList] (by decide)
    (by
      intro v hvm
      simp only [List.mem_cons, List.mem_singleton, List.not_mem_nil, or_false] at hvm
      rcases hvm with rfl | rfl
      · exact ⟨"16".toList, by decide, by decide, by decide⟩
      · exact ⟨"8".toList, by decide, by decide, by decide⟩)

/-! ## Concatenated storage values -/

theorem trimmed_of_head_last {a b : Char} {t u : List Char} (ha : isWhiteSpace a = false)
    (hb : isWhiteSpace b = false) (h : a :: t = u ++ [b]) : Trimmed (a :: t) := by
  constructor
  · intro c hc
    simp only [List.head?_cons, Option.some.injEq] at hc
    subst hc
    exact ha
  · intro c hc
    rw [h] at hc
    have hl : (u ++ [b]).getLast? = some b := by simp
    rw [hl] at hc
    simp only [Option.some.injEq] at hc
    subst hc
    exact hb

theorem cleanSpecString_of_trimmed {c : List Char} (hne : c ≠ []) (ht : Trimmed c)
    (hm : ¬ StartsWithMarker c) : cleanSpecString (.str c) = .ok (.str c) := by
  rw [cleanSpecString_str_iff]
  exact ⟨hne, by rw [stripMarker_of_no_marker hm, trim_of_trimmed ht]⟩

theorem insertAfterUnit_digits_of {isUnit : Char → Char → Bool}
    (hU : ∀ d b, isDigit d = true → isUnit d b = false) {ds : List Char}
    (hds : ∀ d ∈ ds, isDigit d = true) (t : List Char) :
    insertAfterUnit isUnit (ds ++ t) = ds ++ insertAfterUnit isUnit t := by
  induction ds with
  | nil => rfl
  | cons d r ih =>
    have hd : isDigit d = true := hds d (List.mem_cons_self _ _)
    rw [List.cons_append, insertAfterUnit_cons_of_not_unit (fun b => hU d b hd),
      ih (fun x hx => hds x (List.mem_cons_of_mem _ hx))]
    rfl

theorem isGBorTB_digit (d b : Char) (hd : isDigit d = true) : isGBorTB d b = false := by
  have h1 : d ≠ 'G' := isDigit_ne hd (by decide)
  have h2 : d ≠ 'T' := isDigit_ne hd (by decide)
  simp [isGBorTB, h1, h2]

theorem storageValues_head {vals : List (List Char)} (hne : vals ≠ [])
    (hv : ∀ v ∈ vals, IsStorageValue v) :
    ∃ d t, isDigit d = true ∧ vals.flatten = d :: t := by
  cases vals with
  | nil => exact absurd rfl hne
  | cons v rest =>
    obtain ⟨ds, u, hds, hdig, _, rfl⟩ := hv v (List.mem_cons_self _ _)
    cases ds with
    | nil => exact absurd rfl hds
    | cons d r =>
      exact ⟨d, r ++ [u, 'B'] ++ rest.flatten, hdig d (List.mem_cons_self _ _), by simp⟩

theorem storageValues_last {vals : List (List Char)} (hne : vals ≠ [])
    (hv : ∀ v ∈ vals, IsStorageValue v) : ∃ w, vals.flatten = w ++ ['B'] := by
  induction vals with
  | nil => exact absurd rfl hne
  | cons v rest ih =>
    cases rest with
    | nil =>
      obtain ⟨ds, u, _, _, _, rfl⟩ := hv v (List.mem_cons_self _ _)
      exact ⟨ds ++ [u], by simp⟩
    | cons v' rest' =>
      obtain ⟨w, hw⟩ := ih (by simp) (fun x hx => hv x (List.mem_cons_of_mem _ hx))
      exact ⟨v ++ w, by rw [List.flatten_cons, hw, List.append_assoc]⟩

theorem storageValue_trimmed {v : List Char} (h : IsStorageValue v) :
    Trimmed v ∧ v ≠ [] := by
  obtain ⟨ds, u, hds, hdig, _, rfl⟩ := h
  cases ds with
  | nil => exact absurd rfl hds
  | cons d r =>
    refine ⟨?_, by simp⟩
    have hB : isWhiteSpace 'B' = false := by decide
    exact trimmed_of_head_last (u := d :: r ++ [u])
      (isDigit_not_whiteSpace (hdig d (List.mem_cons_self _ _))) hB (by simp)

theorem storageValue_no_pipe {v : List Char} (h : IsStorageValue v) : '|' ∉ v := by
  obtain ⟨ds, u, _, hdig, hu, rfl⟩ := h
  intro hm
  rcases List.mem_append.mp hm with hm | hm
  · exact absurd (hdig _ hm) (by decide)
  · simp only [List.mem_cons, List.mem_singleton, List.not_mem_nil, or_false] at hm
    rcases hu with rfl | rfl <;> rcases hm with hm | hm <;> exact absurd hm (by decide)

theorem splitOn_insertAfterUnit_storage {vals : List (List Char)} (hne : vals ≠ [])
    (hv : ∀ v ∈ vals, IsStorageValue v) :
    splitOn ['|'] (insertAfterUnit isGBorTB vals.flatten) = vals := by
  induction vals with
  | nil => exact absurd rfl hne
  | cons v rest ih =>
    have hvv := hv v (List.mem_cons_self _ _)
    have hpipe := storageValue_no_pipe hvv
    obtain ⟨ds, u, _, hdig, hu, rfl⟩ := hvv
    have hrest : ∀ x ∈ rest, IsStorageValue x := fun x hx => hv x (List.mem_cons_of_mem _ hx)
    have hunit : isGBorTB u 'B' = true := by
      rcases hu with rfl | rfl <;> decide
    rw [List.flatten_cons, List.append_assoc, insertAfterUnit_digits_of isGBorTB_digit hdig]
    cases rest with
    | nil =>
      have : insertAfterUnit isGBorTB ([u, 'B'] ++ ([] : List (List Char)).flatten) =
          [u, 'B'] := by
        simp [insertAfterUnit, startsWithDigit]
      rw [this, splitOn_no_sep hpipe]
    | cons v' rest' =>
      obtain ⟨d, t, hd, ht⟩ := storageValues_head (by simp) hrest
      have hstep : insertAfterUnit isGBorTB ([u, 'B'] ++ (v' :: rest').flatten) =
          [u, 'B'] ++ '|' :: insertAfterUnit isGBorTB (v' :: rest').flatten := by
        rw [ht]
        simp [insertAfterUnit, hunit, startsWithDigit, hd]
      rw [hstep, ← List.append_assoc, splitOn_append_sep hpipe, ih (by simp) hrest]

/-- C11: for a non-empty list of values, each made of one or more decimal
digits followed by `GB` or by `TB`, `parseStorage` applied to their
concatenation returns exactly that list, in order. -/
theorem parseStorage_concat (vals : List (List Char)) (hne : vals ≠ [])
    (hv : ∀ v ∈ vals, IsStorageValue v) :
    parseStorage (.str vals.flatten) = .ok (vals.map .str) := by
  obtain ⟨d, t, hd, ht⟩ := storageValues_head hne hv
  obtain ⟨w, hw⟩ := storageValues_last hne hv
  have htr : Trimmed vals.flatten := by
    have hB : isWhiteSpace 'B' = false := by decide
    rw [ht]
    exact trimmed_of_head_last (isDigit_not_whiteSpace hd) hB (by rw [← ht, hw])
  have hclean : cleanSpecString (.str vals.flatten) = .ok (.str vals.flatten) := by
    refine cleanSpecString_of_trimmed (by rw [ht]; simp) htr ?_
    rintro ⟨x, r, _, h⟩
    rw [ht] at h
    have hd2 : d = '-' := (List.cons.inj h).1
    rw [hd2] at hd
    exact absurd hd (by decide)
  rw [parseStorage_of_clean hclean, splitOn_insertAfterUnit_storage hne hv,
    trimmedNonEmpty_values (fun v h => storageValue_trimmed (hv v h))]

/-- C11 at the values `256GB` and `1TB`. -/
theorem parseStorage_concat_witness :
    parseStorage (lit "256GB1TB") = .ok (lits ["256GB", "1TB"]) :=
  parseStorage_concat ["256GB".toList, "1TB".toList] (by decide)
    (by
      intro v hvm
      simp only [List.mem_cons, List.mem_singleton, List.not_mem_nil, or_false] at hvm
      rcases hvm with rfl | rfl
      · exact ⟨"256".toList, 'G', by decide, by decide, Or.inl rfl, by decide⟩
      · exact ⟨"1".toList, 'T', by decide, by decide, Or.inr rfl, by decide⟩)


/-! ## The guards of `parseDisplay`, `parseDimensions` and `parseMemoryTypes` -/

theorem includes_eq_false {pat s : List Char} (h : ¬ Contains pat s) :
    includes pat s = false := by
  cases hi : includes pat s with
  | false => rfl
  | true => exact absurd (includes_iff.mp hi) h

theorem not_contains_of_includes {pat s : List Char} (h : includes pat s = false) :
    ¬ Contains pat s := by
  intro hc
  rw [includes_iff.mpr hc] at h
  exact Bool.noConfusion h

/-- C15: for an input string whose cleaned string is `c` (every non-empty
string has one), `parseDisplay` returns `[c]` when `c` does not contain
` x `, `parseDimensions` returns `[c]` when `c` lacks `mm` or lacks `inches`,
and `parseMemoryTypes` returns `[c]` when `c` does not contain ` - `. -/
theorem guard_returns_unsplit (s c : List Char)
    (hc : cleanSpecString (.str s) = .ok (.str c)) :
    (¬ Contains " x ".toList c → parseDisplay (.str s) = .ok [.str c]) ∧
    (¬ Contains "mm".toList c ∨ ¬ Contains "inches".toList c →
      parseDimensions (.str s) = .ok [.str c]) ∧
    (¬ Contains " - ".toList c → parseMemoryTypes (.str s) = .ok [.str c]) := by
  refine ⟨?_, ?_, ?_⟩
  · intro h
    rw [parseDisplay_of_clean hc, if_pos (includes_eq_false h)]
  · intro h
    rw [parseDimensions_of_clean hc]
    rcases h with h | h
    · rw [includes_eq_false h]
      rfl
    · rw [includes_eq_false h, Bool.and_false]
      rfl
  · intro h
    rw [parseMemoryTypes_of_clean hc, includes_eq_false h]
    rfl

/-- C15 at the input `DDR5-6400` of `parseMemoryTypes`, behind a list marker. -/
theorem guard_returns_unsplit_witness :
    parseMemoryTypes (lit "- \n\t\t\tDDR5-6400") = .ok [lit "DDR5-6400"] :=
  (guard_returns_unsplit "- \n\t\t\tDDR5-6400".toList "DDR5-6400".toList (by decide)).2.2
    (not_contains_of_includes (by decide))

/-! ## The list marker -/

theorem dropWhile_append_of_all {p : Char → Bool} {w : List Char}
    (hw : ∀ c ∈ w, p c = true) (s : List Char) :
    (w ++ s).dropWhile p = s.dropWhile p := by
  induction w with
  | nil => rfl
  | cons a t ih =>
    rw [List.cons_append, List.dropWhile_cons_of_pos (hw a (List.mem_cons_self _ _)),
      ih (fun c hc => hw c (List.mem_cons_of_mem _ hc))]

theorem isNewlineOrTab_whiteSpace {c : Char} (h : isNewlineOrTab c = true) :
    isWhiteSpace c = true := by
  simp only [isNewlineOrTab, Bool.or_eq_true, beq_iff_eq] at h
  rcases h with rfl | rfl <;> decide

theorem stripMarker_marker {w s : List Char} (hw : w ≠ [])
    (hws : ∀ c ∈ w, isWhiteSpace c = true) (ht : Trimmed s) :
    stripMarker ('-' :: ' ' :: (w ++ s)) = s := by
  have htake : (w ++ s).takeWhile isWhiteSpace ≠ [] := by
    cases w with
    | nil => exact absurd rfl hw
    | cons a t =>
      rw [List.cons_append, List.takeWhile_cons_of_pos (hws a (List.mem_cons_self _ _))]
      simp
  have hdrop : (w ++ s).dropWhile isWhiteSpace = s := by
    rw [dropWhile_append_of_all hws, dropWhile_eq_self_of_head ht.1]
  have hnl : s.dropWhile isNewlineOrTab = s := by
    apply dropWhile_eq_self_of_head
    intro c hc
    have hcw := ht.1 c hc
    cases hn : isNewlineOrTab c with
    | false => rfl
    | true =>
      rw [isNewlineOrTab_whiteSpace hn] at hcw
      exact Bool.noConfusion hcw
  simp only [stripMarker, true_and, ne_eq, htake, not_false_eq_true, if_true, hdrop, hnl]

theorem trimmed_of_trim_eq {s : List Char} (h : trim s = s) : Trimmed s := by
  rw [← h]
  exact trimmed_trim s

/-- C16: for a non-empty string `s` without leading or trailing whitespace
and a non-empty run `w` of whitespace characters, `cleanSpecString` applied to
a dash, a space, `w` and `s` returns `s`. -/
theorem cleanSpecString_marker (s w : List Char) (hs : s ≠ []) (ht : Trimmed s)
    (hw : w ≠ []) (hws : ∀ c ∈ w, isWhiteSpace c = true) :
    cleanSpecString (.str ('-' :: ' ' :: (w ++ s))) = .ok (.str s) := by
  have _hs := hs
  rw [cleanSpecString_str_iff]
  refine ⟨by simp, ?_⟩
  rw [stripMarker_marker hw hws ht, trim_of_trimmed ht]

/-- C16 at the scraped artifact in front of the value `LPDDR5-8400`. -/
theorem cleanSpecString_marker_witness :
    cleanSpecString (lit "- \n\t\t\tLPDDR5-8400") = .ok (lit "LPDDR5-8400") :=
  cleanSpecString_marker "LPDDR5-8400".toList "\n\t\t\t".toList (by decide)
    (trimmed_of_trim_eq (by decide)) (by decide) (by decide)

/-! ## Storage against RAM -/

theorem stripMarker_suffix (s : List Char) : ∃ l, s = l ++ stripMarker s := by
  unfold stripMarker
  split
  · rename_i c1 c2 rest
    split
    · obtain ⟨l1, h1⟩ := List.dropWhile_suffix isWhiteSpace (l := rest)
      obtain ⟨l2, h2⟩ := List.dropWhile_suffix isNewlineOrTab
        (l := rest.dropWhile isWhiteSpace)
      refine ⟨c1 :: c2 :: (l1 ++ l2), ?_⟩
      simp only [List.cons_append, List.append_assoc, h2, h1]
    · exact ⟨[], rfl⟩
  · exact ⟨[], rfl⟩

theorem cleaned_infix {s c : List Char} (hc : cleanSpecString (.str s) = .ok (.str c)) :
    ∃ l r, s = l ++ c ++ r := by
  rw [cleanSpecString_str_iff] at hc
  obtain ⟨l1, h1⟩ := stripMarker_suffix s
  obtain ⟨l2, r, h2⟩ := trim_infix (stripMarker s)
  refine ⟨l1 ++ l2, r, ?_⟩
  rw [hc.2]
  conv_lhs => rw [h1, h2]
  simp

theorem unitBeforeDigit_infix {isUnit : Char → Char → Bool} {c : List Char}
    (l r : List Char) (h : UnitBeforeDigit isUnit c) :
    UnitBeforeDigit isUnit (l ++ c ++ r) := by
  obtain ⟨pre, c1, c2, d, suf, hu, hd, rfl⟩ := h
  exact ⟨l ++ pre, c1, c2, d, suf ++ r, hu, hd, by simp⟩

theorem insertAfterUnit_storage_eq_ram (n : Nat) :
    ∀ c : List Char, c.length ≤ n → ¬ UnitBeforeDigit isTB c →
      insertAfterUnit isGBorTB c = insertAfterUnit isGB c := by
  induction n with
  | zero =>
    intro c hc _
    have : c = [] := List.length_eq_zero.mp (by omega)
    subst this
    rfl
  | succ n ih =>
    intro c hc hno
    match c, hc, hno with
    | [], _, _ => rfl
    | [a], _, _ => rfl
    | c1 :: c2 :: rest, hc, hno =>
      simp only [List.length_cons] at hc
      have hrest : ¬ UnitBeforeDigit isTB rest := fun h =>
        hno (unitBeforeDigit_tail (unitBeforeDigit_tail h))
      have htail : ¬ UnitBeforeDigit isTB (c2 :: rest) := fun h =>
        hno (unitBeforeDigit_tail h)
      have hcond : (isGBorTB c1 c2 && startsWithDigit rest) =
          (isGB c1 c2 && startsWithDigit rest) := by
        cases hd : startsWithDigit rest with
        | false => simp
        | true =>
          cases hg : isGB c1 c2 with
          | true =>
            simp only [isGB, Bool.and_eq_true, beq_iff_eq] at hg
            simp [isGBorTB, hg.1, hg.2]
          | false =>
            cases hs : isGBorTB c1 c2 with
            | false => rfl
            | true =>
              exfalso
              have htb : isTB c1 c2 = true := by
                simp only [isGBorTB, Bool.and_eq_true, Bool.or_eq_true, beq_iff_eq] at hs
                simp only [isGB, Bool.and_eq_false_imp, beq_iff_eq] at hg
                rcases hs.1 with h1 | h1
                · have := hg h1
                  simp [hs.2] at this
                · simp [isTB, h1, hs.2]
              cases rest with
              | nil => simp [startsWithDigit] at hd
              | cons d suf => exact hno ⟨[], c1, c2, d, suf, htb, hd, rfl⟩
      simp only [insertAfterUnit, hcond]
      rw [ih rest (by omega) hrest,
        ih (c2 :: rest) (by simp only [List.length_cons]; omega) htail]

/-- C19: on every string input that contains no `TB` immediately followed by
a digit, `parseStorage` and `parseRAM` have the same outcome (the same
sequence, or both the `TypeError` of the empty string). -/
theorem parseStorage_eq_parseRAM (s : List Char) (h : ¬ UnitBeforeDigit isTB s) :
    parseStorage (.str s) = parseRAM (.str s) := by
  cases hs : s with
  | nil => rfl
  | cons a t =>
    have hc : cleanSpecString (.str s) = .ok (.str (trim (stripMarker s))) :=
      cleanSpecString_str_iff.mpr ⟨by rw [hs]; simp, rfl⟩
    obtain ⟨l, r, hlr⟩ := cleaned_infix hc
    have hno : ¬ UnitBeforeDigit isTB (trim (stripMarker s)) := by
      intro hu
      apply h
      rw [hlr]
      exact unitBeforeDigit_infix l r hu
    rw [← hs, parseStorage_of_clean hc, parseRAM_of_clean hc,
      insertAfterUnit_storage_eq_ram _ _ (Nat.le_refl _) hno]

/-- C19 at the input `256GB512GB`. -/
theorem parseStorage_eq_parseRAM_witness :
    parseStorage (lit "256GB512GB") = parseRAM (lit "256GB512GB") :=
  parseStorage_eq_parseRAM "256GB512GB".toList
    (fun h => absurd ((hasUnitBeforeDigit_iff isTB _ _ (Nat.le_refl _)).mpr h) (by decide))


/-! ## Two concatenated processor names -/

theorem trimmed_append {a b : List Char} (m : List Char) (ha : Trimmed a) (hb : Trimmed b)
    (hane : a ≠ []) (hbne : b ≠ []) : Trimmed (a ++ m ++ b) := by
  constructor
  · intro c hc
    rw [List.append_assoc, List.head?_append_of_ne_nil _ hane] at hc
    exact ha.1 c hc
  · intro c hc
    rw [List.getLast?_append_of_ne_nil _ hbne] at hc
    exact hb.2 c hc

theorem splitBeforeAux_one_cut (look : List Char → Bool) (r1 : List Char) (y : Char)
    (r2 : List Char) (hy : look (y :: r2) = true)
    (h2 : ∀ pre x suf, r2 = pre ++ x :: suf → look (x :: suf) = false) :
    ∀ cur : List Char,
      (∀ pre x suf, r1 = pre ++ x :: suf → look (x :: suf ++ y :: r2) = false) →
      splitBeforeAux look cur (r1 ++ y :: r2) = [cur ++ r1, y :: r2] := by
  induction r1 with
  | nil =>
    intro cur _
    simp only [List.nil_append, splitBeforeAux, hy, if_true, List.append_nil]
    rw [splitBeforeAux_no_cut r2 [y] h2]
    rfl
  | cons a t ih =>
    intro cur h1
    have h0 : look (a :: (t ++ y :: r2)) = false := h1 [] a t rfl
    show splitBeforeAux look cur (a :: (t ++ y :: r2)) = _
    rw [splitBeforeAux, if_neg (by simp [h0]),
      ih (cur ++ [a]) (fun pre x suf hx => h1 (a :: pre) x suf (by simp [hx]))]
    simp

theorem occursAt_isPrefixOf {pat s : List Char} {n : Nat} (h : OccursAt pat s n) :
    n ≤ s.length ∧ pat.isPrefixOf (s.drop n) = true := by
  obtain ⟨pre, suf, rfl, rfl⟩ := h
  refine ⟨by simp only [List.length_append]; omega, ?_⟩
  rw [List.isPrefixOf_iff_prefix, List.append_assoc, List.drop_left]
  exact ⟨suf, rfl⟩

theorem cpuTokens_head (tok : List Char) (h : tok ∈ cpuTokens) :
    ∃ x t, tok = x :: t ∧ x ≠ '-' := by
  simp only [cpuTokens, List.mem_cons, List.mem_singleton, List.not_mem_nil, or_false] at h
  rcases h with rfl | rfl | rfl | rfl | rfl <;> exact ⟨_, _, rfl, by decide⟩

/-- C12: for two strings `a` and `b` without leading or trailing whitespace,
each beginning with a brand token of `parseCPU`, such that the tokens occur in
`a ++ b` only at position 0 and at position `a.length`, `parseCPU` applied to
`a ++ b` returns `[a, b]`. -/
theorem parseCPU_two (a b : List Char) (ha : Trimmed a) (hb : Trimmed b)
    (hat : StartsWithToken cpuTokens a) (hbt : StartsWithToken cpuTokens b)
    (honly : ∀ tok ∈ cpuTokens, ∀ n, OccursAt tok (a ++ b) n → n = 0 ∨ n = a.length) :
    parseCPU (.str (a ++ b)) = .ok [.str a, .str b] := by
  obtain ⟨ta, hta, ra, hra⟩ := hat
  obtain ⟨tb, htb, rb, hrb⟩ := hbt
  obtain ⟨x, ta', rfl, hx⟩ := cpuTokens_head ta hta
  obtain ⟨y, tb', rfl, _⟩ := cpuTokens_head tb htb
  have hane : a ≠ [] := by rw [← hra]; simp
  have hbne : b ≠ [] := by rw [← hrb]; simp
  have htr : Trimmed (a ++ b) := by
    have := trimmed_append [] ha hb hane hbne
    simpa using this
  have hclean : cleanSpecString (.str (a ++ b)) = .ok (.str (a ++ b)) := by
    refine cleanSpecString_of_trimmed (by simp [hane]) htr ?_
    rintro ⟨w, r, _, h⟩
    rw [← hra] at h
    exact hx (List.cons.inj h).1
  have hsplit : splitBefore (startsWithAny cpuTokens) (a ++ b) = [a, b] := by
    have hb' : b = y :: (tb' ++ rb) := by rw [← hrb]; rfl
    have ha' : a = x :: (ta' ++ ra) := by rw [← hra]; rfl
    have hlook : startsWithAny cpuTokens (y :: (tb' ++ rb)) = true :=
      startsWithAny_iff.mpr ⟨y :: tb', htb, rb, rfl⟩
    have key := splitBeforeAux_one_cut (startsWithAny cpuTokens) (ta' ++ ra) y
      (tb' ++ rb) hlook ?_ [x] ?_
    · rw [ha', hb']
      exact key
    · intro pre z suf hz
      by_contra hl
      have hl2 : startsWithAny cpuTokens (z :: suf) = true := by simpa using hl
      obtain ⟨tok, htok, r, hr⟩ := startsWithAny_iff.mp hl2
      have hocc : OccursAt tok (a ++ b) (a.length + 1 + pre.length) :=
        ⟨a ++ y :: pre, r, by rw [hb', hz, hr]; simp, by simp; omega⟩
      have := honly tok htok _ hocc
      omega
    · intro pre z suf hz
      by_contra hl
      have hl2 : startsWithAny cpuTokens (z :: suf ++ y :: (tb' ++ rb)) = true := by
        simpa using hl
      obtain ⟨tok, htok, r, hr⟩ := startsWithAny_iff.mp hl2
      have hocc : OccursAt tok (a ++ b) (1 + pre.length) := by
        refine ⟨x :: pre, r, ?_, by simp; omega⟩
        have e : x :: (pre ++ z :: suf) ++ y :: (tb' ++ rb) =
            x :: pre ++ (z :: suf ++ y :: (tb' ++ rb)) := by simp
        rw [ha', hb', hz, e, hr]
        simp
      have := honly tok htok _ hocc
      have hlen : a.length = 1 + (pre.length + (1 + suf.length)) := by
        rw [ha', hz]
        simp
        omega
      omega
  rw [parseCPU_of_clean hclean, hsplit, trimmedNonEmpty_values]
  · rfl
  · intro v hv
    simp only [List.mem_cons, List.mem_singleton, List.not_mem_nil, or_false] at hv
    rcases hv with rfl | rfl
    · exact ⟨ha, hane⟩
    · exact ⟨hb, hbne⟩

/-- C12 at the processor names of the specification. -/
theorem parseCPU_two_witness :
    parseCPU (lit "Intel Core i7-12700HAMD Ryzen 7 6800H") =
      .ok [lit "Intel Core i7-12700H", lit "AMD Ryzen 7 6800H"] :=
  parseCPU_two "Intel Core i7-12700H".toList "AMD Ryzen 7 6800H".toList
    (trimmed_of_trim_eq (by decide)) (trimmed_of_trim_eq (by decide))
    ⟨"Intel".toList, by decide, " Core i7-12700H".toList, by decide⟩
    ⟨"AMD".toList, by decide, " Ryzen 7 6800H".toList, by decide⟩
    (fun tok htok n hocc =>
      (by decide : ∀ t ∈ cpuTokens, ∀ k < 38,
        t.isPrefixOf ("Intel Core i7-12700HAMD Ryzen 7 6800H".toList.drop k) = true →
          k = 0 ∨ k = 20) tok htok n
        (Nat.lt_succ_of_le (occursAt_isPrefixOf hocc).1) (occursAt_isPrefixOf hocc).2)


/-! ## Memory types joined with the delimiter -/

theorem splitOn_dash_sep (t : List Char) :
    splitOn " - ".toList (" - ".toList ++ t) = [] :: splitOn " - ".toList t := by
  show splitOnAux [' ', '-', ' '] 0 (' ' :: '-' :: ' ' :: t) = _
  simp [splitOnAux, splitOn, List.isPrefixOf]

theorem splitOn_dash_cons {a : Char} (ha : a ≠ ' ') (t : List Char) :
    splitOn " - ".toList (a :: t) = consHead a (splitOn " - ".toList t) := by
  show splitOnAux [' ', '-', ' '] 0 (a :: t) = _
  have : ¬ ' ' = a := fun h => ha h.symm
  simp [splitOnAux, splitOn, List.isPrefixOf, this]

theorem splitOn_dash_value {v : List Char} (hv : ∀ c ∈ v, isWhiteSpace c = false)
    (t : List Char) :
    splitOn " - ".toList (v ++ " - ".toList ++ t) = v :: splitOn " - ".toList t := by
  induction v with
  | nil => exact splitOn_dash_sep t
  | cons a r ih =>
    have ha : a ≠ ' ' := by
      rintro rfl
      exact absurd (hv ' ' (List.mem_cons_self _ _)) (by decide)
    rw [List.cons_append, List.cons_append, splitOn_dash_cons ha,
      ih (fun c hc => hv c (List.mem_cons_of_mem _ hc))]
    rfl

theorem splitOn_dash_last {v : List Char} (hv : ∀ c ∈ v, isWhiteSpace c = false) :
    splitOn " - ".toList v = [v] := by
  induction v with
  | nil => rfl
  | cons a r ih =>
    have ha : a ≠ ' ' := by
      rintro rfl
      exact absurd (hv ' ' (List.mem_cons_self _ _)) (by decide)
    rw [splitOn_dash_cons ha, ih (fun c hc => hv c (List.mem_cons_of_mem _ hc))]
    rfl

theorem intercalate_cons_cons (sep v v' : List Char) (rest : List (List Char)) :
    List.intercalate sep (v :: v' :: rest) = v ++ sep ++ List.intercalate sep (v' :: rest) := by
  simp [List.intercalate, List.intersperse]

theorem intercalate_single (sep v : List Char) : List.intercalate sep [v] = v := by
  simp [List.intercalate, List.intersperse]

theorem splitOn_intercalate {vals : List (List Char)} (hne : vals ≠ [])
    (hv : ∀ v ∈ vals, v ≠ [] ∧ ∀ c ∈ v, isWhiteSpace c = false) :
    splitOn " - ".toList (List.intercalate " - ".toList vals) = vals := by
  induction vals with
  | nil => exact absurd rfl hne
  | cons v rest ih =>
    cases rest with
    | nil => rw [intercalate_single, splitOn_dash_last (hv v (List.mem_cons_self _ _)).2]
    | cons v' rest' =>
      rw [intercalate_cons_cons, splitOn_dash_value (hv v (List.mem_cons_self _ _)).2,
        ih (by simp) (fun x hx => hv x (List.mem_cons_of_mem _ hx))]

theorem trimmed_of_no_whiteSpace {v : List Char} (hv : ∀ c ∈ v, isWhiteSpace c = false) :
    Trimmed v :=
  ⟨fun c hc => hv c (List.mem_of_mem_head? hc), fun c hc => hv c (List.mem_of_mem_getLast? hc)⟩

theorem trimmed_intercalate {vals : List (List Char)} (hne : vals ≠ [])
    (hv : ∀ v ∈ vals, v ≠ [] ∧ ∀ c ∈ v, isWhiteSpace c = false) :
    Trimmed (List.intercalate " - ".toList vals) ∧ List.intercalate " - ".toList vals ≠ [] := by
  induction vals with
  | nil => exact absurd rfl hne
  | cons v rest ih =>
    have hvv := hv v (List.mem_cons_self _ _)
    cases rest with
    | nil =>
      rw [intercalate_single]
      exact ⟨trimmed_of_no_whiteSpace hvv.2, hvv.1⟩
    | cons v' rest' =>
      obtain ⟨ht, hn⟩ := ih (by simp) (fun x hx => hv x (List.mem_cons_of_mem _ hx))
      rw [intercalate_cons_cons]
      exact ⟨trimmed_append _ (trimmed_of_no_whiteSpace hvv.2) ht hvv.1 hn, by simp [hn]⟩

/-- C13: for a list of two or more values, each non-empty and without any
whitespace character, `parseMemoryTypes` applied to the values joined with the
delimiter ` - ` returns exactly that list, in order. -/
theorem parseMemoryTypes_join (vals : List (List Char)) (h2 : 2 ≤ vals.length)
    (hv : ∀ v ∈ vals, v ≠ [] ∧ ∀ c ∈ v, isWhiteSpace c = false) :
    parseMemoryTypes (.str (List.intercalate " - ".toList vals)) = .ok (vals.map .str) := by
  match vals, h2, hv with
  | v :: v' :: rest, _, hv =>
    have hne : v :: v' :: rest ≠ [] := by simp
    obtain ⟨htr, hnn⟩ := trimmed_intercalate hne hv
    have hvv := hv v (List.mem_cons_self _ _)
    have hclean : cleanSpecString (.str (List.intercalate " - ".toList (v :: v' :: rest))) =
        .ok (.str (List.intercalate " - ".toList (v :: v' :: rest))) := by
      refine cleanSpecString_of_trimmed hnn htr ?_
      rintro ⟨w, r, hw, h⟩
      rw [intercalate_cons_cons] at h
      match v, hvv, h with
      | [], hvv, _ => exact hvv.1 rfl
      | [a], _, h =>
        have h3 : '-' = w := by
          have := (List.cons.inj (List.cons.inj (List.cons.inj h).2).2).1
          exact this
        rw [← h3] at hw
        exact absurd hw (by decide)
      | a :: b :: t, hvv, h =>
        have hb : b = ' ' := (List.cons.inj (List.cons.inj h).2).1
        have := hvv.2 b (by simp)
        rw [hb] at this
        exact absurd this (by decide)
    have hinc : includes " - ".toList (List.intercalate " - ".toList (v :: v' :: rest)) =
        true := by
      rw [includes_iff, intercalate_cons_cons]
      exact ⟨v, _, rfl⟩
    rw [parseMemoryTypes_of_clean hclean, if_pos hinc, splitOn_intercalate hne hv,
      trimmedNonEmpty_values (fun x hx => ⟨trimmed_of_no_whiteSpace (hv x hx).2, (hv x hx).1⟩)]

/-- C13 at the memory types of the specification. -/
theorem parseMemoryTypes_join_witness :
    parseMemoryTypes (lit "LPDDR5-8400 - DDR5-6400") =
      .ok [lit "LPDDR5-8400", lit "DDR5-6400"] :=
  parseMemoryTypes_join ["LPDDR5-8400".toList, "DDR5-6400".toList] (by decide)
    (by
      intro v hvm
      simp only [List.mem_cons, List.mem_singleton, List.not_mem_nil, or_false] at hvm
      rcases hvm with rfl | rfl <;> exact ⟨by decide, by decide⟩)


/-! ## A metric and an imperial part -/

theorem insertAfterFirst_no_match (pat r1 r2 : List Char)
    (h : ∀ pre x suf, r1 = pre ++ x :: suf → ¬ pat <+: x :: suf ++ r2) :
    insertAfterFirst pat (r1 ++ r2) = r1 ++ insertAfterFirst pat r2 := by
  induction r1 with
  | nil => rfl
  | cons a t ih =>
    have h0 : ¬ pat <+: a :: (t ++ r2) := h [] a t rfl
    show insertAfterFirst pat (a :: (t ++ r2)) = _
    rw [insertAfterFirst, if_neg (by rw [List.isPrefixOf_iff_prefix]; exact h0),
      ih (fun pre x suf hx => h (a :: pre) x suf (by simp [hx]))]
    rfl

theorem insertAfterFirst_match (pat : List Char) (hp : pat ≠ []) (suf : List Char) :
    insertAfterFirst pat (pat ++ suf) = pat ++ '|' :: suf := by
  cases pat with
  | nil => exact absurd rfl hp
  | cons p t =>
    show insertAfterFirst (p :: t) (p :: (t ++ suf)) = _
    rw [insertAfterFirst, if_pos (by rw [List.isPrefixOf_iff_prefix]; exact ⟨suf, rfl⟩)]
    have : List.drop (p :: t).length (p :: (t ++ suf)) = suf := by
      exact List.drop_left (p :: t) suf
    rw [this]

theorem insertAfterFirst_of_not_contains {pat s : List Char} (h : ¬ Contains pat s) :
    insertAfterFirst pat s = s := by
  have := insertAfterFirst_no_match pat s [] (by
    rintro pre x suf rfl ⟨r, hr⟩
    exact h ⟨pre, r, by rw [List.append_assoc, hr]; simp⟩)
  simpa [insertAfterFirst] using this

theorem prefix_through_pipe {pat : List Char} (hp : '|' ∉ pat) :
    ∀ x y : List Char, pat <+: x ++ '|' :: y → pat <+: x := by
  induction pat with
  | nil => intro x y _; exact List.nil_prefix
  | cons p t ih =>
    intro x y h
    simp only [List.mem_cons, not_or] at hp
    cases x with
    | nil =>
      rw [List.nil_append, List.cons_prefix_cons] at h
      exact absurd h.1.symm hp.1
    | cons a x' =>
      rw [List.cons_append, List.cons_prefix_cons] at h
      rw [List.cons_prefix_cons]
      exact ⟨h.1, ih hp.2 x' y h.2⟩

/-- C14, as stated, fails: a metric part that begins with the list marker has
no leading whitespace, and `cleanSpecString` strips the marker from it, so the
first segment is not the metric part. -/
theorem parseDimensions_marker_part :
    ¬ ∀ m i : List Char, "mm".toList <:+ m → "inches".toList <:+ i → Trimmed m →
      Trimmed i → (∀ n, OccursAt "mm".toList (m ++ i) n → n + 2 = m.length) →
      (∀ n, OccursAt "inches".toList (m ++ i) n → n + 6 = (m ++ i).length) →
      ¬ Contains "nm".toList (m ++ i) → '|' ∉ m ++ i →
      parseDimensions (.str (m ++ i)) = .ok [.str m, .str i] := by
  intro h
  have hmm : ∀ k < 29,
      "mm".toList.isPrefixOf (("- \t300 x 200 mm".toList ++ "11 x 8 inches".toList).drop k) =
        true → k + 2 = 15 := by
    decide
  have hin : ∀ k < 29,
      "inches".toList.isPrefixOf
        (("- \t300 x 200 mm".toList ++ "11 x 8 inches".toList).drop k) = true →
        k + 6 = 28 := by
    decide
  have key := h "- \t300 x 200 mm".toList "11 x 8 inches".toList
    ⟨"- \t300 x 200 ".toList, by decide⟩ ⟨"11 x 8 ".toList, by decide⟩
    (trimmed_of_trim_eq (by decide)) (trimmed_of_trim_eq (by decide))
    (fun n hocc => hmm n (Nat.lt_succ_of_le (occursAt_isPrefixOf hocc).1)
      (occursAt_isPrefixOf hocc).2)
    (fun n hocc => hin n (Nat.lt_succ_of_le (occursAt_isPrefixOf hocc).1)
      (occursAt_isPrefixOf hocc).2)
    (not_contains_of_includes (by decide)) (by decide)
  have hout : parseDimensions (.str ("- \t300 x 200 mm".toList ++ "11 x 8 inches".toList)) =
      .ok (lits ["300 x 200 mm", "11 x 8 inches"]) := by
    decide
  rw [hout] at key
  exact absurd key (by decide)

/-- C14, amended: for a metric part `m` ending in `mm` and an imperial part
`i` ending in `inches`, both without leading or trailing whitespace, where `mm`
occurs in `m ++ i` only as the end of `m`, `inches` only as the end of `i`,
`m ++ i` contains neither `nm` nor `|`, and `m ++ i` does not begin with the
list marker (a dash, a space and a whitespace character), `parseDimensions`
applied to `m ++ i` returns `[m, i]`. -/
theorem parseDimensions_pair (m i : List Char) (hm : "mm".toList <:+ m)
    (hi : "inches".toList <:+ i) (htm : Trimmed m) (hti : Trimmed i)
    (hmm : ∀ n, OccursAt "mm".toList (m ++ i) n → n + 2 = m.length)
    (hin : ∀ n, OccursAt "inches".toList (m ++ i) n → n + 6 = (m ++ i).length)
    (hnm : ¬ Contains "nm".toList (m ++ i)) (hpipe : '|' ∉ m ++ i)
    (hmark : ¬ StartsWithMarker (m ++ i)) :
    parseDimensions (.str (m ++ i)) = .ok [.str m, .str i] := by
  obtain ⟨m', rfl⟩ := hm
  obtain ⟨i', rfl⟩ := hi
  have l1 : "mm".toList.length = 2 := rfl
  have l2 : "inches".toList.length = 6 := rfl
  have hmne : m' ++ "mm".toList ≠ [] := by simp
  have hine : i' ++ "inches".toList ≠ [] := by simp
  have htr : Trimmed (m' ++ "mm".toList ++ (i' ++ "inches".toList)) := by
    have := trimmed_append [] htm hti hmne hine
    simpa using this
  have hclean := cleanSpecString_of_trimmed (by simp) htr hmark
  have hinc1 : includes "mm".toList (m' ++ "mm".toList ++ (i' ++ "inches".toList)) = true :=
    includes_iff.mpr ⟨m', i' ++ "inches".toList, rfl⟩
  have hinc2 :
      includes "inches".toList (m' ++ "mm".toList ++ (i' ++ "inches".toList)) = true :=
    includes_iff.mpr ⟨m' ++ "mm".toList ++ i', [], by simp⟩
  have hstep1 : insertAfterFirst "mm".toList (m' ++ "mm".toList ++ (i' ++ "inches".toList)) =
      m' ++ "mm".toList ++ '|' :: (i' ++ "inches".toList) := by
    rw [List.append_assoc, insertAfterFirst_no_match, insertAfterFirst_match _ (by decide),
      List.append_assoc]
    rintro pre x suf rfl ⟨r, hr⟩
    have hocc : OccursAt "mm".toList
        (pre ++ x :: suf ++ "mm".toList ++ (i' ++ "inches".toList)) pre.length :=
      ⟨pre, r, by rw [List.append_assoc pre "mm".toList r, hr]; simp, rfl⟩
    have := hmm _ hocc
    simp only [List.length_append, List.length_cons, l1] at this
    omega
  have hstep2 : insertAfterFirst "inches".toList
      (m' ++ "mm".toList ++ '|' :: (i' ++ "inches".toList)) =
      m' ++ "mm".toList ++ '|' :: (i' ++ "inches".toList ++ ['|']) := by
    have e : m' ++ "mm".toList ++ '|' :: (i' ++ "inches".toList) =
        (m' ++ "mm".toList ++ '|' :: i') ++ "inches".toList := by simp
    have hlast := insertAfterFirst_match "inches".toList (by decide) []
    rw [List.append_nil] at hlast
    rw [e, insertAfterFirst_no_match, hlast]
    · simp
    · intro pre x suf hx hpre
      rcases List.append_eq_append_iff.mp hx with ⟨a', ha1, ha2⟩ | ⟨c', hc1, hc2⟩
      · -- the position is at or after the inserted marker
        cases a' with
        | nil =>
          simp only [List.nil_append, List.cons.injEq] at ha2
          obtain ⟨rfl, rfl⟩ := ha2
          obtain ⟨r, hr⟩ := hpre
          have : '|' = 'i' := (List.cons.inj hr).1.symm
          exact absurd this (by decide)
        | cons q a'' =>
          simp only [List.cons_append, List.cons.injEq] at ha2
          obtain ⟨_, rfl⟩ := ha2
          obtain ⟨r, hr⟩ := hpre
          have hocc : OccursAt "inches".toList
              (m' ++ "mm".toList ++ (a'' ++ x :: suf ++ "inches".toList))
              (m' ++ "mm".toList ++ a'').length := by
            refine ⟨m' ++ "mm".toList ++ a'', r, ?_, rfl⟩
            rw [List.append_assoc _ "inches".toList r, hr]
            simp
          have := hin _ hocc
          simp only [List.length_append, List.length_cons, l1, l2] at this
          omega
      · -- the position is inside the metric part
        have hpre2 : "inches".toList <+: c' ++ '|' :: (i' ++ "inches".toList) := by
          have e2 : x :: suf ++ "inches".toList = c' ++ '|' :: (i' ++ "inches".toList) := by
            rw [hc2]
            simp
          rw [← e2]
          exact hpre
        obtain ⟨r, hr⟩ := prefix_through_pipe (by decide) c' _ hpre2
        have hocc : OccursAt "inches".toList
            (m' ++ "mm".toList ++ (i' ++ "inches".toList)) pre.length := by
          refine ⟨pre, r ++ (i' ++ "inches".toList), ?_, rfl⟩
          rw [hc1, List.append_assoc pre, List.append_assoc pre, ← List.append_assoc _ r, hr]
        have := hin _ hocc
        have hlen := congrArg List.length hc1
        have hlr := congrArg List.length hr
        simp only [List.length_append, List.length_cons, l1, l2] at this hlen hlr
        omega
  have hnp : '|' ∉ m' ++ "mm".toList ∧ '|' ∉ i' ++ "inches".toList := by
    constructor
    · intro h
      exact hpipe (List.mem_append_left _ h)
    · intro h
      exact hpipe (List.mem_append_right _ h)
  rw [parseDimensions_of_clean hclean, hinc1, hinc2, Bool.and_self, if_pos rfl,
    insertAfterFirst_of_not_contains hnm, hstep1, hstep2, splitOn_append_sep hnp.1,
    splitOn_append_sep hnp.2]
  have hlast : splitOn ['|'] [] = [[]] := rfl
  rw [hlast, trimmedNonEmpty_cons, trim_of_trimmed htm, if_neg hmne, trimmedNonEmpty_cons,
    trim_of_trimmed hti, if_neg hine]
  rfl


/-- C14, amended, at the dimensions of the specification. -/
theorem parseDimensions_pair_witness :
    parseDimensions (lit "300 x 200 mm11 x 8 inches") =
      .ok [lit "300 x 200 mm", lit "11 x 8 inches"] :=
  parseDimensions_pair "300 x 200 mm".toList "11 x 8 inches".toList
    ⟨"300 x 200 ".toList, by decide⟩ ⟨"11 x 8 ".toList, by decide⟩
    (trimmed_of_trim_eq (by decide)) (trimmed_of_trim_eq (by decide))
    (fun n hocc =>
      (by decide : ∀ k < 26,
        "mm".toList.isPrefixOf ("300 x 200 mm11 x 8 inches".toList.drop k) = true →
          k + 2 = 12) n
        (Nat.lt_succ_of_le (occursAt_isPrefixOf hocc).1) (occursAt_isPrefixOf hocc).2)
    (fun n hocc =>
      (by decide : ∀ k < 26,
        "inches".toList.isPrefixOf ("300 x 200 mm11 x 8 inches".toList.drop k) = true →
          k + 6 = 25) n
        (Nat.lt_succ_of_le (occursAt_isPrefixOf hocc).1) (occursAt_isPrefixOf hocc).2)
    (not_contains_of_includes (by decide)) (by decide)
    (by
      rintro ⟨w, rest, _, h⟩
      have h1 : '3' = '-' := (List.cons.inj h).1
      exact absurd h1 (by decide))


/-! ## Segments of `parseGPU` and the brand tokens -/

theorem startsWithAny_append {tokens : List (List Char)} {l : List Char} (r : List Char)
    (h : startsWithAny tokens l = true) : startsWithAny tokens (l ++ r) = true := by
  obtain ⟨tok, htok, u, hu⟩ := startsWithAny_iff.mp h
  exact startsWithAny_iff.mpr ⟨tok, htok, u ++ r, by rw [hu, List.append_assoc]⟩

theorem pieces_start_with_token {tokens : List (List Char)}
    (hne : ∀ tok ∈ tokens, tok ≠ [])
    (hno : ∀ t1 ∈ tokens, ∀ c ∈ t1.tail, ∀ t2 ∈ tokens, t2.head? ≠ some c)
    (rest : List Char) :
    ∀ cur : List Char, cur ≠ [] → (∃ tok ∈ tokens, tok <+: cur ++ rest) →
      ∀ p ∈ splitBeforeAux (startsWithAny tokens) cur rest, StartsWithToken tokens p := by
  induction rest with
  | nil =>
    intro cur _ htok p hp
    simp only [splitBeforeAux, List.mem_singleton] at hp
    subst hp
    simpa using htok
  | cons a t ih =>
    intro cur hcur htok p hp
    rw [splitBeforeAux] at hp
    split at hp
    · rename_i hlook
      rcases List.mem_cons.mp hp with rfl | hp
      · obtain ⟨tok, hmem, hpre⟩ := htok
        refine ⟨tok, hmem, ?_⟩
        by_cases hlen : tok.length ≤ p.length
        · exact List.prefix_of_prefix_length_le hpre (List.prefix_append _ _) hlen
        · exfalso
          have hp2 : p <+: tok :=
            List.prefix_of_prefix_length_le (List.prefix_append _ _) hpre (by omega)
          obtain ⟨u, hu⟩ := hp2
          cases u with
          | nil =>
            rw [List.append_nil] at hu
            rw [hu] at hlen
            exact hlen (Nat.le_refl _)
          | cons z u' =>
            have hza : z = a := by
              rw [← hu, List.prefix_append_right_inj, List.cons_prefix_cons] at hpre
              exact hpre.1
            subst hza
            obtain ⟨t2, h2mem, r2, hr2⟩ := startsWithAny_iff.mp hlook
            have hhead : t2.head? = some z := by
              cases t2 with
              | nil => exact absurd rfl (hne _ h2mem)
              | cons y t2' =>
                have : z = y := (List.cons.inj hr2).1
                rw [this]
                rfl
            have hin : z ∈ tok.tail := by
              cases p with
              | nil => exact absurd rfl hcur
              | cons c0 p' =>
                rw [← hu]
                simp
            exact hno tok hmem z hin t2 h2mem hhead
      · refine ih [a] (by simp) ?_ p hp
        obtain ⟨tok, hmem, r, hr⟩ := startsWithAny_iff.mp hlook
        exact ⟨tok, hmem, r, hr.symm⟩
    · refine ih (cur ++ [a]) (by simp) ?_ p hp
      obtain ⟨tok, hmem, hpre⟩ := htok
      exact ⟨tok, hmem, by simpa using hpre⟩

theorem later_pieces_start_with_token {tokens : List (List Char)}
    (hne : ∀ tok ∈ tokens, tok ≠ [])
    (hno : ∀ t1 ∈ tokens, ∀ c ∈ t1.tail, ∀ t2 ∈ tokens, t2.head? ≠ some c)
    (rest : List Char) :
    ∀ cur : List Char, ∃ first others,
      splitBeforeAux (startsWithAny tokens) cur rest = first :: others ∧
      ∀ p ∈ others, StartsWithToken tokens p := by
  induction rest with
  | nil =>
    intro cur
    exact ⟨cur, [], rfl, by simp⟩
  | cons a t ih =>
    intro cur
    rw [splitBeforeAux]
    split
    · rename_i hlook
      refine ⟨cur, _, rfl, ?_⟩
      refine pieces_start_with_token hne hno t [a] (by simp) ?_
      obtain ⟨tok, hmem, r, hr⟩ := startsWithAny_iff.mp hlook
      exact ⟨tok, hmem, r, hr.symm⟩
    · exact ih (cur ++ [a])

theorem pieces_no_inner_token {tokens : List (List Char)} (rest : List Char) :
    ∀ cur : List Char,
      (∀ pre x suf, cur = pre ++ x :: suf → pre ≠ [] →
        startsWithAny tokens (x :: suf ++ rest) = false) →
      ∀ p ∈ splitBeforeAux (startsWithAny tokens) cur rest,
        ∀ pre x suf, p = pre ++ x :: suf → pre ≠ [] →
          startsWithAny tokens (x :: suf) = false := by
  induction rest with
  | nil =>
    intro cur hcur p hp pre x suf hx hpre
    simp only [splitBeforeAux, List.mem_singleton] at hp
    subst hp
    have := hcur pre x suf hx hpre
    simpa using this
  | cons a t ih =>
    intro cur hcur p hp pre x suf hx hpre
    rw [splitBeforeAux] at hp
    split at hp
    · rcases List.mem_cons.mp hp with rfl | hp
      · have hf := hcur pre x suf hx hpre
        cases hl : startsWithAny tokens (x :: suf) with
        | false => rfl
        | true =>
          rw [startsWithAny_append (a :: t) hl] at hf
          exact Bool.noConfusion hf
      · refine ih [a] ?_ p hp pre x suf hx hpre
        intro pre' x' suf' h1 hpre'
        exfalso
        have hlen := congrArg List.length h1
        simp only [List.length_singleton, List.length_append, List.length_cons,
          List.length_nil] at hlen
        have hpos : 0 < pre'.length := List.length_pos.mpr hpre'
        omega
    · rename_i hlook
      refine ih (cur ++ [a]) ?_ p hp pre x suf hx hpre
      intro pre' x' suf' h1 hpre'
      rcases List.eq_nil_or_concat suf' with rfl | ⟨suf'', z, rfl⟩
      · have h2 : cur ++ [a] = pre' ++ [x'] := h1
        obtain ⟨_, hxa⟩ := List.append_inj' h2 rfl
        have hxa' : a = x' := (List.cons.inj hxa).1
        subst hxa'
        simpa using hlook
      · have h2 : cur ++ [a] = (pre' ++ x' :: suf'') ++ [z] := by
          rw [h1]
          simp
        obtain ⟨hcur', hza⟩ := List.append_inj' h2 rfl
        have hza' : a = z := (List.cons.inj hza).1
        subst hza'
        have := hcur pre' x' suf'' hcur' hpre'
        simpa using this

theorem mem_trimmedNonEmpty {seg : List Char} {ps : List (List Char)}
    (h : seg ∈ trimmedNonEmpty ps) : ∃ p ∈ ps, seg = trim p := by
  simp only [trimmedNonEmpty, List.mem_filter, List.mem_map] at h
  obtain ⟨⟨p, hp, rfl⟩, _⟩ := h
  exact ⟨p, hp, rfl⟩

theorem rdropWhile_append_of_last {p : Char → Bool} {tok : List Char}
    (hlast : ∀ c, tok.getLast? = some c → p c = false) (r : List Char) :
    ∃ r', (tok ++ r).rdropWhile p = tok ++ r' := by
  induction r using List.reverseRecOn with
  | nil => exact ⟨[], by rw [List.append_nil, rdropWhile_eq_self_of_last hlast]⟩
  | append_singleton r0 z ih =>
    rw [← List.append_assoc, List.rdropWhile_concat]
    split
    · exact ih
    · exact ⟨r0 ++ [z], by simp⟩

theorem startsWithToken_trim {tokens : List (List Char)}
    (htr : ∀ tok ∈ tokens, Trimmed tok ∧ tok ≠ []) {p : List Char}
    (h : StartsWithToken tokens p) : StartsWithToken tokens (trim p) := by
  obtain ⟨tok, hmem, r, rfl⟩ := h
  obtain ⟨ht, hne⟩ := htr tok hmem
  refine ⟨tok, hmem, ?_⟩
  unfold trim
  have hd : (tok ++ r).dropWhile isWhiteSpace = tok ++ r := by
    apply dropWhile_eq_self_of_head
    intro c hc
    rw [List.head?_append_of_ne_nil _ hne] at hc
    exact ht.1 c hc
  rw [hd]
  obtain ⟨r', hr'⟩ := rdropWhile_append_of_last ht.2 r
  rw [hr']
  exact List.prefix_append _ _


theorem gpuTokens_trimmed : ∀ tok ∈ gpuTokens, Trimmed tok ∧ tok ≠ [] := by
  intro tok h
  have key : ∀ t ∈ gpuTokens, trim t = t ∧ t ≠ [] := by decide
  exact ⟨trimmed_of_trim_eq (key tok h).1, (key tok h).2⟩

theorem gpuTokens_no_overlap :
    ∀ t1 ∈ gpuTokens, ∀ c ∈ t1.tail, ∀ t2 ∈ gpuTokens, t2.head? ≠ some c := by
  decide

/-! ## Pieces between delimiters -/

theorem cut_ne_nil {G : List Char → Prop} {ps : List (List Char)} {s : List Char}
    (h : Cut G ps s) : ps ≠ [] := by
  cases h <;> simp

theorem cut_head {G : List Char → Prop} {p : List Char} {ps : List (List Char)}
    {s : List Char} (h : Cut G (p :: ps) s) : p <+: s := by
  cases h with
  | single => exact List.prefix_refl _
  | @cons _ g _ s' _ _ => exact ⟨g ++ s', by simp⟩

theorem intercalate_of_cut {sep : List Char} {ps : List (List Char)} {s : List Char}
    (h : Cut (fun g => g = sep) ps s) : s = List.intercalate sep ps := by
  induction h with
  | single => rw [intercalate_single]
  | @cons p g ps s hg hcut ih =>
    subst hg
    cases ps with
    | nil => exact absurd rfl (cut_ne_nil hcut)
    | cons q qs => rw [intercalate_cons_cons, ← ih]

theorem flatten_of_cut {ps : List (List Char)} {s : List Char}
    (h : Cut (fun g => g = []) ps s) : ps.flatten = s := by
  induction h with
  | single => simp
  | cons p g hg _ ih =>
    subst hg
    rw [List.flatten_cons, ih]
    simp

theorem not_contains_nil {sep : List Char} (hsep : sep ≠ []) : ¬ Contains sep [] := by
  rintro ⟨pre, suf, h⟩
  have hlen := congrArg List.length h
  simp only [List.length_nil, List.length_append] at hlen
  exact hsep (List.length_eq_zero.mp (by omega))

theorem contains_cons {sep p : List Char} {a : Char} (h : Contains sep (a :: p)) :
    sep <+: a :: p ∨ Contains sep p := by
  obtain ⟨pre, suf, h⟩ := h
  cases pre with
  | nil => exact Or.inl ⟨suf, by simpa using h.symm⟩
  | cons b pre' =>
    simp only [List.cons_append, List.cons.injEq] at h
    exact Or.inr ⟨pre', suf, h.2⟩

theorem splitOnAux_no_sep (sep : List Char) (hsep : sep ≠ []) (n : Nat) :
    ∀ s : List Char, s.length ≤ n → ∀ p ∈ splitOnAux sep 0 s, ¬ Contains sep p := by
  induction n with
  | zero =>
    intro s hs p hp
    have : s = [] := List.length_eq_zero.mp (by omega)
    subst this
    simp only [splitOnAux, List.mem_singleton] at hp
    subst hp
    exact not_contains_nil hsep
  | succ n ih =>
    intro s hs p hp
    cases s with
    | nil =>
      simp only [splitOnAux, List.mem_singleton] at hp
      subst hp
      exact not_contains_nil hsep
    | cons a t =>
      simp only [splitOnAux] at hp
      split at hp
      · rename_i hpre
        rw [List.isPrefixOf_iff_prefix] at hpre
        obtain ⟨r, hr⟩ := hpre
        cases sep with
        | nil => exact absurd rfl hsep
        | cons b sep' =>
          simp only [List.cons_append, List.cons.injEq] at hr
          obtain ⟨rfl, rfl⟩ := hr
          simp only [List.length_cons, Nat.add_sub_cancel] at hp
          rw [splitOnAux_skip] at hp
          rcases List.mem_cons.mp hp with rfl | hp
          · exact not_contains_nil hsep
          · refine ih r ?_ p hp
            simp only [List.length_cons, List.length_append] at hs
            omega
      · rename_i hpre
        have hlen : t.length ≤ n := by simpa using hs
        have hcut := cut_splitOnAux sep hsep n t hlen
        cases hps : splitOnAux sep 0 t with
        | nil => exact absurd hps (cut_ne_nil hcut)
        | cons p0 ps' =>
          rw [hps] at hp hcut
          have hmem0 : p0 ∈ splitOnAux sep 0 t := by rw [hps]; exact List.mem_cons_self _ _
          rcases List.mem_cons.mp hp with rfl | hp
          · intro hcon
            rcases contains_cons hcon with hpf | hin
            · apply hpre
              rw [List.isPrefixOf_iff_prefix]
              exact hpf.trans ((List.prefix_cons_inj a).mpr (cut_head hcut))
            · exact ih t hlen p0 hmem0 hin
          · exact ih t hlen p (by rw [hps]; exact List.mem_cons_of_mem _ hp)

theorem splitOn_no_sep_inside (sep : List Char) (hsep : sep ≠ []) (s : List Char) :
    ∀ p ∈ splitOn sep s, ¬ Contains sep p :=
  splitOnAux_no_sep sep hsep s.length s (Nat.le_refl _)

theorem deleteWhiteSpace_intercalate (sep : List Char) (ps : List (List Char)) :
    deleteWhiteSpace (List.intercalate sep ps) =
      List.intercalate (deleteWhiteSpace sep) (ps.map deleteWhiteSpace) := by
  induction ps with
  | nil => rfl
  | cons p rest ih =>
    cases rest with
    | nil => rw [List.map_cons, List.map_nil, intercalate_single, intercalate_single]
    | cons q qs =>
      rw [intercalate_cons_cons, List.map_cons, List.map_cons, intercalate_cons_cons,
        ← List.map_cons, ← ih]
      simp [deleteWhiteSpace]

theorem splitsAtDelimiter_splitOn (sep : List Char) (hsep : sep ≠ []) (c : List Char) :
    SplitsAtDelimiter sep c (.ok ((trimmedNonEmpty (splitOn sep c)).map .str)) := by
  have hcut := intercalate_of_cut (cut_splitOn sep hsep c)
  refine ⟨splitOn sep c, hcut, splitOn_no_sep_inside sep hsep c, rfl, ?_⟩
  conv_lhs => rw [hcut]
  exact deleteWhiteSpace_intercalate sep _

/-! ## Segments and the characters of the cleaned string -/

/-- C7, as stated, fails: `parseMemoryTypes` drops the hyphen of the delimiter
` - `, and `parseRAM` drops a `|` of its input. -/
theorem segments_drop_delimiter :
    (cleanSpecString (lit "LPDDR5-8400 - DDR5-6400") = .ok (lit "LPDDR5-8400 - DDR5-6400") ∧
      parseMemoryTypes (lit "LPDDR5-8400 - DDR5-6400") =
        .ok (lits ["LPDDR5-8400", "DDR5-6400"]) ∧
      deleteWhiteSpace ("LPDDR5-8400".toList ++ "DDR5-6400".toList) ≠
        deleteWhiteSpace "LPDDR5-8400 - DDR5-6400".toList) ∧
    (cleanSpecString (lit "8GB|16GB") = .ok (lit "8GB|16GB") ∧
      parseRAM (lit "8GB|16GB") = .ok (lits ["8GB", "16GB"]) ∧
      deleteWhiteSpace ("8GB".toList ++ "16GB".toList) ≠
        deleteWhiteSpace "8GB|16GB".toList) := by
  decide

/-- C7, amended: for an input string whose cleaned string is `c`, the
segments of `parseDisplay`, `parseCPU` and `parseGPU`, concatenated and with
whitespace deleted, are `c` with whitespace deleted; so are those of
`parseRAM`, `parseStorage` and `parseDimensions` when `c` has no `|`, and those
of `parseMemoryTypes` when `c` does not contain the delimiter ` - `.  When `c`
contains the delimiter, `c` is a sequence of pieces joined with ` - `, none of
which contains ` - `, the segments of `parseMemoryTypes` are these pieces,
trimmed, without the empty ones, and `c` with whitespace deleted is the pieces
with whitespace deleted, joined with one hyphen: only the hyphen of each
delimiter is missing from the segments. -/
theorem segments_partition (s c : List Char)
    (hc : cleanSpecString (.str s) = .ok (.str c)) :
    Reconstructs notSpace c (parseDisplay (.str s)) ∧
    Reconstructs notSpace c (parseCPU (.str s)) ∧
    Reconstructs notSpace c (parseGPU (.str s)) ∧
    ('|' ∉ c → Reconstructs notSpace c (parseRAM (.str s))) ∧
    ('|' ∉ c → Reconstructs notSpace c (parseStorage (.str s))) ∧
    ('|' ∉ c → Reconstructs notSpace c (parseDimensions (.str s))) ∧
    (¬ Contains " - ".toList c → Reconstructs notSpace c (parseMemoryTypes (.str s))) ∧
    (Contains " - ".toList c →
      SplitsAtDelimiter " - ".toList c (parseMemoryTypes (.str s))) := by
  have noGap : ∀ g : List Char, g = [] → g.filter notSpace = [] := by
    rintro g rfl
    rfl
  refine ⟨?_, ?_, ?_, ?_, ?_, ?_, ?_, ?_⟩
  · rw [parseDisplay_of_clean hc]
    split
    · exact reconstructs_single _ c
    · exact reconstructs_of_cut notSpace_imp noGap (cut_splitBefore _ c)
  · rw [parseCPU_of_clean hc]
    exact reconstructs_of_cut notSpace_imp noGap (cut_splitBefore _ c)
  · rw [parseGPU_of_clean hc]
    exact reconstructs_of_cut notSpace_imp noGap (cut_splitBefore _ c)
  · intro hp
    rw [parseRAM_of_clean hc]
    exact reconstructs_of_cut notSpace_imp noGap
      (cut_no_pipe (cut_splitOn_pipe (pipeIns_insertAfterUnit _ _ c (Nat.le_refl _))) hp)
  · intro hp
    rw [parseStorage_of_clean hc]
    exact reconstructs_of_cut notSpace_imp noGap
      (cut_no_pipe (cut_splitOn_pipe (pipeIns_insertAfterUnit _ _ c (Nat.le_refl _))) hp)
  · intro hp
    rw [parseDimensions_of_clean hc]
    split
    · exact reconstructs_of_cut notSpace_imp noGap
        (cut_no_pipe (cut_splitOn_pipe (pipeIns_dimensions c)) hp)
    · exact reconstructs_single _ c
  · intro hno
    rw [parseMemoryTypes_of_clean hc, includes_eq_false hno]
    exact reconstructs_single _ c
  · intro hyes
    rw [parseMemoryTypes_of_clean hc, if_pos (includes_iff.mpr hyes)]
    exact splitsAtDelimiter_splitOn " - ".toList (by decide) c

/-- C7, amended, at the memory types of the specification: the two segments
are the two pieces around the one delimiter. -/
theorem segments_partition_witness :
    SplitsAtDelimiter " - ".toList "LPDDR5-8400 - DDR5-6400".toList
      (parseMemoryTypes (lit "LPDDR5-8400 - DDR5-6400")) :=
  (segments_partition "LPDDR5-8400 - DDR5-6400".toList "LPDDR5-8400 - DDR5-6400".toList
    (by decide)).2.2.2.2.2.2.2 ⟨"LPDDR5-8400".toList, "DDR5-6400".toList, by decide⟩


/-! ## The cuts of `parseGPU` -/

theorem splitBeforeAux_cut_at {look : List Char → Bool} (rest : List Char) :
    ∀ (cur pre : List Char) (x : Char) (suf : List Char), rest = pre ++ x :: suf →
      look (x :: suf) = true →
      ∃ k, ((splitBeforeAux look cur rest).take k).flatten = cur ++ pre := by
  induction rest with
  | nil =>
    intro cur pre x suf h _
    have hlen := congrArg List.length h
    simp only [List.length_nil, List.length_append, List.length_cons] at hlen
    omega
  | cons a t ih =>
    intro cur pre x suf h hlook
    cases pre with
    | nil =>
      simp only [List.nil_append, List.cons.injEq] at h
      obtain ⟨rfl, rfl⟩ := h
      refine ⟨1, ?_⟩
      rw [splitBeforeAux, if_pos hlook]
      simp
    | cons b pre' =>
      simp only [List.cons_append, List.cons.injEq] at h
      obtain ⟨rfl, ht⟩ := h
      rw [splitBeforeAux]
      split
      · obtain ⟨k, hk⟩ := ih [a] pre' x suf ht hlook
        refine ⟨k + 1, ?_⟩
        rw [List.take_succ_cons, List.flatten_cons, hk]
        simp
      · obtain ⟨k, hk⟩ := ih (cur ++ [a]) pre' x suf ht hlook
        exact ⟨k, by rw [hk]; simp⟩

theorem first_piece_extends (look : List Char → Bool) (rest : List Char) :
    ∀ cur : List Char, ∃ first others,
      splitBeforeAux look cur rest = first :: others ∧ cur <+: first := by
  induction rest with
  | nil =>
    intro cur
    exact ⟨cur, [], rfl, List.prefix_refl _⟩
  | cons a t ih =>
    intro cur
    rw [splitBeforeAux]
    split
    · exact ⟨cur, _, rfl, List.prefix_refl _⟩
    · obtain ⟨first, others, h, hpre⟩ := ih (cur ++ [a])
      exact ⟨first, others, h, (List.prefix_append cur [a]).trans hpre⟩

theorem trim_ne_nil_of_head {a : Char} (ha : isWhiteSpace a = false) (u : List Char) :
    trim (a :: u) ≠ [] := by
  unfold trim
  rw [List.dropWhile_cons_of_neg (by simp [ha])]
  intro h
  rw [List.rdropWhile_eq_nil_iff] at h
  have := h a (List.mem_cons_self _ _)
  rw [ha] at this
  exact Bool.noConfusion this

theorem trimmedNonEmpty_eq_map {ps : List (List Char)} (h : ∀ p ∈ ps, trim p ≠ []) :
    trimmedNonEmpty ps = ps.map trim := by
  induction ps with
  | nil => rfl
  | cons p rest ih =>
    rw [trimmedNonEmpty_cons, if_neg (h p (List.mem_cons_self _ _)),
      ih (fun q hq => h q (List.mem_cons_of_mem _ hq)), List.map_cons]

theorem startsWithToken_ne_nil {tokens : List (List Char)}
    (hne : ∀ tok ∈ tokens, tok ≠ []) {p : List Char} (h : StartsWithToken tokens p) :
    p ≠ [] := by
  obtain ⟨tok, hmem, r, rfl⟩ := h
  simp [hne tok hmem]

/-- C17: for an input string whose cleaned string is `c` (every non-empty
string has one), `parseGPU` cuts `c` into pieces that, concatenated, are `c`,
with a cut before every occurrence of a brand token after the start of `c` and
nowhere else (every piece after the first begins with a token), and returns
these pieces trimmed (none is dropped when `c` is not empty); so every
returned segment after the first begins with a token, and no segment contains
an occurrence of a token that starts after its first character. -/
theorem parseGPU_segments (s c : List Char)
    (hc : cleanSpecString (.str s) = .ok (.str c)) :
    ∃ pieces : List (List Char), CutBeforeTokens gpuTokens c pieces ∧
      parseGPU (.str s) = .ok ((trimmedNonEmpty pieces).map .str) ∧
      (c ≠ [] → trimmedNonEmpty pieces = pieces.map trim) ∧
      (∀ seg ∈ (trimmedNonEmpty pieces).tail, StartsWithToken gpuTokens seg) ∧
      (∀ seg ∈ trimmedNonEmpty pieces, ∀ tok ∈ gpuTokens, ¬ OccursAfterStart tok seg) := by
  have htokne : ∀ tok ∈ gpuTokens, tok ≠ [] := fun tok h => (gpuTokens_trimmed tok h).2
  refine ⟨splitBefore (startsWithAny gpuTokens) c, ⟨?_, ?_, ?_⟩, parseGPU_of_clean hc,
    ?_, ?_, ?_⟩
  · exact flatten_of_cut (cut_splitBefore _ c)
  · intro p hp
    cases c with
    | nil => exact absurd hp (by simp [splitBefore])
    | cons a rest =>
      obtain ⟨first, others, hsplit, hothers⟩ :=
        later_pieces_start_with_token htokne gpuTokens_no_overlap rest [a]
      have hs : splitBefore (startsWithAny gpuTokens) (a :: rest) = first :: others := hsplit
      rw [hs] at hp
      exact hothers p hp
  · intro tok htok pre suf hocc hpre
    cases c with
    | nil =>
      have hlen := congrArg List.length hocc
      have hpos : 0 < pre.length := List.length_pos.mpr hpre
      simp only [List.length_nil, List.length_append] at hlen
      omega
    | cons a rest =>
      cases pre with
      | nil => exact absurd rfl hpre
      | cons b pre' =>
        cases htk : tok with
        | nil => exact absurd htk (htokne tok htok)
        | cons x tok' =>
          rw [htk] at hocc
          simp only [List.cons_append, List.cons.injEq, List.append_assoc] at hocc
          obtain ⟨rfl, hrest⟩ := hocc
          have hlook : startsWithAny gpuTokens (x :: (tok' ++ suf)) = true :=
            startsWithAny_iff.mpr ⟨tok, htok, suf, by rw [htk]; simp⟩
          obtain ⟨k, hk⟩ := splitBeforeAux_cut_at rest [a] pre' x (tok' ++ suf) hrest hlook
          exact ⟨k, hk⟩
  · intro hne
    apply trimmedNonEmpty_eq_map
    intro p hp
    cases c with
    | nil => exact absurd rfl hne
    | cons a rest =>
      obtain ⟨first, others, hsplit, hothers⟩ :=
        later_pieces_start_with_token htokne gpuTokens_no_overlap rest [a]
      obtain ⟨first', others', hsplit', hfirst⟩ :=
        first_piece_extends (startsWithAny gpuTokens) rest [a]
      have hs : splitBefore (startsWithAny gpuTokens) (a :: rest) = first :: others := hsplit
      rw [hsplit] at hsplit'
      obtain ⟨rfl, rfl⟩ := List.cons.inj hsplit'
      rw [hs] at hp
      rcases List.mem_cons.mp hp with rfl | hp
      · obtain ⟨u, hu⟩ := hfirst
        rw [← hu]
        exact trim_ne_nil_of_head ((cleaned_trimmed hc).1 a rfl) u
      · exact startsWithToken_ne_nil htokne
          (startsWithToken_trim gpuTokens_trimmed (hothers p hp))
  · intro seg hseg
    cases c with
    | nil =>
      have hnil : (trimmedNonEmpty (splitBefore (startsWithAny gpuTokens) [])).tail = [] := by
        decide
      rw [hnil] at hseg
      exact absurd hseg (List.not_mem_nil _)
    | cons a rest =>
      obtain ⟨first, others, hsplit, hothers⟩ :=
        later_pieces_start_with_token htokne gpuTokens_no_overlap rest [a]
      have hs : splitBefore (startsWithAny gpuTokens) (a :: rest) = first :: others := hsplit
      rw [hs, trimmedNonEmpty_cons] at hseg
      have hmem : seg ∈ trimmedNonEmpty others := by
        split at hseg
        · exact List.mem_of_mem_tail hseg
        · exact hseg
      obtain ⟨p, hp, rfl⟩ := mem_trimmedNonEmpty hmem
      exact startsWithToken_trim gpuTokens_trimmed (hothers p hp)
  · rintro seg hseg tok htok ⟨pre, suf, hpre, hocc⟩
    obtain ⟨p, hp, rfl⟩ := mem_trimmedNonEmpty hseg
    cases c with
    | nil =>
      simp only [splitBefore, List.mem_singleton] at hp
      subst hp
      have hlen := congrArg List.length hocc
      have hpos : 0 < pre.length := List.length_pos.mpr hpre
      have htrim : trim ([] : List Char) = [] := rfl
      rw [htrim] at hlen
      simp only [List.length_nil, List.length_append] at hlen
      omega
    | cons a rest =>
      obtain ⟨l, r, hlr⟩ := trim_infix p
      cases htk : tok with
      | nil => exact htokne tok htok htk
      | cons x tok' =>
        have hp2 : p = (l ++ pre) ++ x :: (tok' ++ suf ++ r) := by
          conv_lhs => rw [hlr, hocc, htk]
          simp
        have hfalse := pieces_no_inner_token rest [a] (by
            intro pre' x' suf' h1 hpre'
            exfalso
            have hlen := congrArg List.length h1
            simp only [List.length_singleton, List.length_append, List.length_cons,
              List.length_nil] at hlen
            have hpos : 0 < pre'.length := List.length_pos.mpr hpre'
            omega)
          p hp (l ++ pre) x (tok' ++ suf ++ r) hp2 (by simp [hpre])
        have htrue : startsWithAny gpuTokens (x :: (tok' ++ suf ++ r)) = true :=
          startsWithAny_iff.mpr ⟨tok, htok, suf ++ r, by rw [htk]; simp⟩
        rw [htrue] at hfalse
        exact Bool.noConfusion hfalse

/-- C17 at two concatenated GPU names: one cut, before `Radeon`, and two
segments. -/
theorem parseGPU_segments_witness :
    (∃ pieces : List (List Char),
      CutBeforeTokens gpuTokens "GeForce RTX 4060Radeon RX 7600".toList pieces ∧
      parseGPU (lit "GeForce RTX 4060Radeon RX 7600") =
        .ok ((trimmedNonEmpty pieces).map .str) ∧
      ("GeForce RTX 4060Radeon RX 7600".toList ≠ [] →
        trimmedNonEmpty pieces = pieces.map trim) ∧
      (∀ seg ∈ (trimmedNonEmpty pieces).tail, StartsWithToken gpuTokens seg) ∧
      (∀ seg ∈ trimmedNonEmpty pieces, ∀ tok ∈ gpuTokens, ¬ OccursAfterStart tok seg)) ∧
    parseGPU (lit "GeForce RTX 4060Radeon RX 7600") =
      .ok (lits ["GeForce RTX 4060", "Radeon RX 7600"]) :=
  ⟨parseGPU_segments "GeForce RTX 4060Radeon RX 7600".toList
    "GeForce RTX 4060Radeon RX 7600".toList (by decide), by decide⟩


end DataParser

namespace GetComparisons

/-! ## The pairs of `getComparisons` -/

theorem loop_eq {α : Type} (arr : List α) (k : Nat) :
    ∀ (i : Nat) (result : List (Option α × Option α)),
      loop arr k i result = result ++ (List.range k).map (fun j => pairAt arr (i + j)) := by
  induction k with
  | zero => intro i result; simp [loop]
  | succ k ih =>
    intro i result
    have hmap : List.map (fun j => pairAt arr (i + 1 + j)) (List.range k) =
        List.map ((fun j => pairAt arr (i + j)) ∘ Nat.succ) (List.range k) := by
      apply List.map_congr_left
      intro j _
      simp only [Function.comp, Nat.succ_eq_add_one]
      congr 1
      omega
    rw [loop, ih, List.range_succ_eq_map, List.map_cons, List.map_map, List.append_assoc,
      hmap]
    rfl

theorem getComparisons_eq {α : Type} (arr : List α) (num : Nat) :
    getComparisons arr num = (List.range num).map (pairAt arr) := by
  unfold getComparisons
  rw [loop_eq]
  simp

theorem getComparisons_getElem? {α : Type} (arr : List α) {num i : Nat} (h : i < num) :
    (getComparisons arr num)[i]? = some (pairAt arr i) := by
  rw [getComparisons_eq, List.getElem?_map, List.getElem?_range h]
  rfl

/-- C20: for a non-empty array `arr` of length `n` and a natural number `num`,
`getComparisons` returns exactly `num` pairs, the pair at index `i` being
`[arr[i % n], arr[(i + 1) % n]]` with both elements read inside the array; the
second element of a pair is the first of the next one, and the pair at index
`i + n` is the pair at index `i`. -/
theorem getComparisons_pairs {α : Type} (arr : List α) (num : Nat) (hne : arr ≠ []) :
    (getComparisons arr num).length = num ∧
    (∀ i, i < num → ∃ a b, arr[i % arr.length]? = some a ∧
      arr[(i + 1) % arr.length]? = some b ∧
      (getComparisons arr num)[i]? = some (some a, some b)) ∧
    (∀ i, i + 1 < num → ∃ p q, (getComparisons arr num)[i]? = some p ∧
      (getComparisons arr num)[i + 1]? = some q ∧ p.2 = q.1) ∧
    (∀ i, i + arr.length < num →
      (getComparisons arr num)[i + arr.length]? = (getComparisons arr num)[i]?) := by
  have hpos : 0 < arr.length := List.length_pos.mpr hne
  refine ⟨by rw [getComparisons_eq]; simp, ?_, ?_, ?_⟩
  · intro i hi
    have h1 : i % arr.length < arr.length := Nat.mod_lt _ hpos
    have h2 : (i + 1) % arr.length < arr.length := Nat.mod_lt _ hpos
    refine ⟨arr[i % arr.length], arr[(i + 1) % arr.length], List.getElem?_eq_getElem h1,
      List.getElem?_eq_getElem h2, ?_⟩
    rw [getComparisons_getElem? arr hi]
    simp only [pairAt, List.getElem?_eq_getElem h1, List.getElem?_eq_getElem h2]
  · intro i hi
    refine ⟨pairAt arr i, pairAt arr (i + 1), getComparisons_getElem? arr (by omega),
      getComparisons_getElem? arr hi, rfl⟩
  · intro i hi
    rw [getComparisons_getElem? arr hi, getComparisons_getElem? arr (by omega)]
    simp only [pairAt]
    rw [Nat.add_mod_right, show i + arr.length + 1 = i + 1 + arr.length by omega,
      Nat.add_mod_right]

/-- C20 at the array `[10, 20, 30]` and `num = 5`. -/
theorem getComparisons_pairs_witness :
    (getComparisons [10, 20, 30] 5).length = 5 ∧
    (∀ i, i < 5 → ∃ a b, [10, 20, 30][i % [10, 20, 30].length]? = some a ∧
      [10, 20, 30][(i + 1) % [10, 20, 30].length]? = some b ∧
      (getComparisons [10, 20, 30] 5)[i]? = some (some a, some b)) ∧
    (∀ i, i + 1 < 5 → ∃ p q, (getComparisons [10, 20, 30] 5)[i]? = some p ∧
      (getComparisons [10, 20, 30] 5)[i + 1]? = some q ∧ p.2 = q.1) ∧
    (∀ i, i + [10, 20, 30].length < 5 →
      (getComparisons [10, 20, 30] 5)[i + [10, 20, 30].length]? =
        (getComparisons [10, 20, 30] 5)[i]?) :=
  getComparisons_pairs [10, 20, 30] 5 (by decide)

end GetComparisons

namespace ProcessData

/-! ## First appearances -/

theorem mem_keepFirst {a : Atom} (l : List Atom) : a ∈ keepFirst l ↔ a ∈ l := by
  induction l with
  | nil => simp [keepFirst]
  | cons b t ih =>
    simp only [keepFirst, List.mem_cons, List.mem_filter, ih, bne_iff_ne, ne_eq]
    constructor
    · rintro (h | ⟨h, _⟩)
      · exact Or.inl h
      · exact Or.inr h
    · intro h
      by_cases hab : a = b
      · exact Or.inl hab
      · rcases h with h | h
        · exact Or.inl h
        · exact Or.inr ⟨h, hab⟩

theorem nodup_keepFirst (l : List Atom) : (keepFirst l).Nodup := by
  induction l with
  | nil => simp [keepFirst]
  | cons b t ih =>
    simp only [keepFirst, List.nodup_cons, List.mem_filter, bne_self_eq_false,
      Bool.false_eq_true, and_false, not_false_eq_true, true_and]
    exact ih.filter _

theorem keepFirst_append_singleton (l : List Atom) (a : Atom) :
    keepFirst (l ++ [a]) = if a ∈ l then keepFirst l else keepFirst l ++ [a] := by
  induction l with
  | nil => simp [keepFirst]
  | cons b t ih =>
    show b :: (keepFirst (t ++ [a])).filter (fun c => c != b) = _
    rw [ih]
    by_cases hat : a ∈ t
    · rw [if_pos hat, if_pos (List.mem_cons_of_mem _ hat)]
      rfl
    · rw [if_neg hat]
      by_cases hab : a = b
      · subst hab
        rw [if_pos (List.mem_cons_self _ _)]
        simp [keepFirst]
      · have hnot : a ∉ b :: t := by simp [hab, hat]
        rw [if_neg hnot]
        simp [keepFirst, hab]

theorem buildProfile_id {type : List Char} {comp : Comparison} {id : Atom}
    {name : Option (List Char)} {slug : Slug} {p : Profile}
    (h : buildProfile type comp id name slug = .ok p) : p.id = id := by
  simp only [buildProfile, bind, Except.bind, pure, Except.pure] at h
  repeat' split at h
  all_goals first | (injection h with h; rw [← h]) | injection h

theorem has_iff (map : ProfileMap) (id : Atom) :
    has map id = true ↔ id ∈ map.map (fun e => e.1) := by
  simp only [has, List.any_eq_true, beq_iff_eq, List.mem_map]

/-! ## The loop invariant -/

theorem invariant_entries_extend {type : List Char} {map : ProfileMap}
    {occ : List (Atom × Comparison × Nat)} (extra : List (Atom × Comparison × Nat))
    (h : ∀ e ∈ map, e.2.id = e.1 ∧ ∃ pre comp index post,
      occ = pre ++ (e.1, comp, index) :: post ∧ (∀ o ∈ pre, o.1 ≠ e.1) ∧
      BuiltFrom type comp index e.2) :
    ∀ e ∈ map, e.2.id = e.1 ∧ ∃ pre comp index post,
      occ ++ extra = pre ++ (e.1, comp, index) :: post ∧ (∀ o ∈ pre, o.1 ≠ e.1) ∧
      BuiltFrom type comp index e.2 := by
  intro e he
  obtain ⟨hid, pre, comp, index, post, hocc, hpre, hb⟩ := h e he
  exact ⟨hid, pre, comp, index, post ++ extra, by rw [hocc]; simp, hpre, hb⟩

theorem processItem_invariant {type : List Char} {comp : Comparison} {md : Metadata}
    {ids : List Atom} {map map' : ProfileMap} {occ : List (Atom × Comparison × Nat)}
    {index : Nat} (hmd : comp.metadata = some md) (hids : md.ids = some ids)
    (hinv : LoopInvariant type map occ)
    (h : processItem type comp md ids map index = .ok map') :
    LoopInvariant type map' (occ ++ occurrenceAt comp ids index) := by
  unfold processItem at h
  unfold occurrenceAt
  cases hid : ids[index]? with
  | none =>
    rw [hid] at h
    simp only [pure, Except.pure, Except.ok.injEq] at h
    subst h
    simpa using hinv
  | some id =>
    rw [hid] at h
    simp only at h ⊢
    cases ht : truthy id with
    | false =>
      simp only [ht, Bool.not_false, if_true, pure, Except.pure, Except.ok.injEq] at h
      subst h
      simpa using hinv
    | true =>
      simp only [ht, Bool.not_true, Bool.false_eq_true, if_false, if_true] at h ⊢
      cases hn : md.names with
      | none =>
        rw [hn] at h
        exact Except.noConfusion h
      | some names =>
        rw [hn] at h
        simp only at h
        cases hh : has map id with
        | true =>
          simp only [hh, if_true, pure, Except.pure, Except.ok.injEq] at h
          subst h
          have hmem : id ∈ List.map (fun o => o.1) occ := by
            rw [← mem_keepFirst, ← hinv.1]
            exact (has_iff map id).mp hh
          refine ⟨?_, invariant_entries_extend _ hinv.2⟩
          rw [List.map_append, List.map_cons, List.map_nil, keepFirst_append_singleton,
            if_pos hmem]
          exact hinv.1
        | false =>
          simp only [hh, Bool.false_eq_true, if_false, bind, Except.bind, pure,
            Except.pure] at h
          cases hb : buildProfile type comp id names[index]? (slugAt md.slugs index) with
          | error e =>
            rw [hb] at h
            exact Except.noConfusion h
          | ok p =>
            rw [hb] at h
            simp only [Except.ok.injEq] at h
            subst h
            have hnot : id ∉ List.map (fun o => o.1) occ := by
              intro hm
              have := (has_iff map id).mpr (by rw [hinv.1, mem_keepFirst]; exact hm)
              rw [hh] at this
              exact Bool.noConfusion this
            constructor
            · rw [List.map_append, List.map_append, List.map_cons, List.map_nil,
                List.map_cons, List.map_nil, keepFirst_append_singleton, if_neg hnot,
                hinv.1]
            · intro e he
              rcases List.mem_append.mp he with he | he
              · exact invariant_entries_extend _ hinv.2 e he
              · simp only [List.mem_singleton] at he
                subst he
                refine ⟨buildProfile_id hb, occ, comp, index, [], rfl, ?_,
                  md, ids, names, id, hmd, hids, hn, hid, hb⟩
                intro o ho heq
                exact hnot (List.mem_map.mpr ⟨o, ho, heq⟩)

theorem processComparison_invariant {type : List Char} {comp : Comparison}
    {map map' : ProfileMap} {occ : List (Atom × Comparison × Nat)}
    (hinv : LoopInvariant type map occ)
    (h : processComparison type map comp = .ok map') :
    LoopInvariant type map' (occ ++ occurrencesOf comp) := by
  unfold processComparison at h
  unfold occurrencesOf
  cases hmd : comp.metadata with
  | none =>
    rw [hmd] at h
    simp only [pure, Except.pure, Except.ok.injEq] at h
    subst h
    simpa using hinv
  | some md =>
    rw [hmd] at h
    simp only at h ⊢
    cases hids : md.ids with
    | none =>
      rw [hids] at h
      simp only [pure, Except.pure, Except.ok.injEq] at h
      subst h
      simpa using hinv
    | some ids =>
      rw [hids] at h
      simp only at h ⊢
      by_cases hlen : ids.length < 2
      · simp only [hlen, if_true, pure, Except.pure, Except.ok.injEq] at h
        subst h
        simpa [hlen] using hinv
      · simp only [hlen, if_false, List.foldlM_cons, List.foldlM_nil, bind, Except.bind,
          pure, Except.pure] at h ⊢
        cases h0 : processItem type comp md ids map 0 with
        | error e =>
          rw [h0] at h
          exact Except.noConfusion h
        | ok m1 =>
          rw [h0] at h
          simp only at h
          cases h1 : processItem type comp md ids m1 1 with
          | error e =>
            rw [h1] at h
            exact Except.noConfusion h
          | ok m2 =>
            rw [h1] at h
            simp only [Except.ok.injEq] at h
            subst h
            have i1 := processItem_invariant hmd hids hinv h0
            have i2 := processItem_invariant hmd hids i1 h1
            rw [List.append_assoc] at i2
            exact i2

theorem processBatch_invariant {type : List Char} (comps : List Comparison) :
    ∀ (map map' : ProfileMap) (occ : List (Atom × Comparison × Nat)),
      LoopInvariant type map occ →
      comps.foldlM (processComparison type) map = .ok map' →
      LoopInvariant type map' (occ ++ occurrences comps) := by
  induction comps with
  | nil =>
    intro map map' occ hinv h
    simp only [List.foldlM_nil, pure, Except.pure, Except.ok.injEq] at h
    subst h
    simpa [occurrences] using hinv
  | cons c cs ih =>
    intro map map' occ hinv h
    simp only [List.foldlM_cons, bind, Except.bind] at h
    cases hc : processComparison type map c with
    | error e =>
      rw [hc] at h
      exact Except.noConfusion h
    | ok m1 =>
      rw [hc] at h
      have := ih m1 map' _ (processComparison_invariant hinv hc) h
      simpa [occurrences, List.append_assoc] using this

/-! ## First seen wins -/

/-- C18: for a batch that `processFile` handles without an exception, the
returned profiles have pairwise distinct identifiers, their identifiers are
those met by the loop in order of first appearance, and each profile is the
one built from the record and pair position at which its identifier first
appears. -/
theorem processFile_first_wins (type : List Char) (comps : List Comparison)
    (map : ProfileMap) (h : processBatch type comps = .ok map) :
    ((processFile type comps).map (fun p => p.id)).Nodup ∧
    (processFile type comps).map (fun p => p.id) =
      keepFirst ((occurrences comps).map (fun o => o.1)) ∧
    ∀ p ∈ processFile type comps, ∃ pre comp index post,
      occurrences comps = pre ++ (p.id, comp, index) :: post ∧
      (∀ o ∈ pre, o.1 ≠ p.id) ∧ BuiltFrom type comp index p := by
  have hinv0 : LoopInvariant type [] [] := ⟨rfl, by simp⟩
  have hinv := processBatch_invariant comps [] map [] hinv0 h
  rw [List.nil_append] at hinv
  have hfile : processFile type comps = map.map (fun e => e.2) := by
    simp only [processFile, h]
  have hids : (processFile type comps).map (fun p => p.id) =
      keepFirst ((occurrences comps).map (fun o => o.1)) := by
    rw [hfile, List.map_map, ← hinv.1]
    apply List.map_congr_left
    intro e he
    exact (hinv.2 e he).1
  refine ⟨by rw [hids]; exact nodup_keepFirst _, hids, ?_⟩
  intro p hp
  rw [hfile] at hp
  obtain ⟨e, he, rfl⟩ := List.mem_map.mp hp
  obtain ⟨hid, pre, comp, index, post, hocc, hpre, hb⟩ := hinv.2 e he
  rw [hid]
  exact ⟨pre, comp, index, post, hocc, hpre, hb⟩

theorem repeatedIdBatch_profiles :
    (processFile "laptop".toList repeatedIdBatch).map (fun p => (p.id, p.name)) =
      [(.num 1, some "Alpha 14".toList), (.num 2, some "Bravo 15".toList),
        (.num 3, some "Charlie 16".toList)] := by
  rfl

/-- C18 at a batch of two records in which the identifier `1` appears twice. -/
theorem processFile_first_wins_witness :
    ((processFile "laptop".toList repeatedIdBatch).map (fun p => p.id)).Nodup ∧
    (processFile "laptop".toList repeatedIdBatch).map (fun p => p.id) =
      keepFirst ((occurrences repeatedIdBatch).map (fun o => o.1)) :=
  ⟨(processFile_first_wins "laptop".toList repeatedIdBatch _ rfl).1,
    (processFile_first_wins "laptop".toList repeatedIdBatch _ rfl).2.1⟩

end ProcessData
